import Mathlib

/-!
Shallow embedding of `fabricator/fabricator.py` (boichee/fabricator): the
two-phase REST-client builder.  Python strings are modelled as `String` where
only equality and case mapping matter, and as `List Char` where character-level
scanning matters (path templates).  Handler and auth-handler function values
are opaque: they are elements of a type parameter `H`.  Exceptions are
modelled as values of `FabError`; a function that can raise returns `Except
FabError _`.  The outgoing `requests.request(...)` call is modelled as a
`Request` value: a dispatch that returns `.ok (req : Request)` reached the
transport, a dispatch that returns `.error _` raised before any network call.
-/

set_option maxRecDepth 4000

namespace Fab

/-- Equality of modelled raise-or-return results is decidable (the toolchain
ships no such instance for `Except`). -/
instance {e a : Type} [DecidableEq e] [DecidableEq a] : DecidableEq (Except e a) := fun x y =>
  match x, y with
  | .error u, .error v => decidable_of_iff (u = v) (by simp)
  | .error _, .ok _ => isFalse (by simp)
  | .ok _, .error _ => isFalse (by simp)
  | .ok u, .ok v => decidable_of_iff (u = v) (by simp)

/-- The nine members of the `HTTPMethods` enum (fabricator.py lines 123-149). -/
inductive HTTPMethod : Type where
  | GET | POST | PUT | PATCH | DELETE | OPTIONS | HEAD | CONNECT | TRACE
deriving DecidableEq, Repr

/-- `HTTPMethods.<M>.value`: every member's value is its own name. -/
def HTTPMethod.value : HTTPMethod → String
  | .GET => "GET"
  | .POST => "POST"
  | .PUT => "PUT"
  | .PATCH => "PATCH"
  | .DELETE => "DELETE"
  | .OPTIONS => "OPTIONS"
  | .HEAD => "HEAD"
  | .CONNECT => "CONNECT"
  | .TRACE => "TRACE"

/-- `HTTPMethods.all()`: `dir()` sorts alphabetically, and on the enum class it
lists exactly the nine member names (none starts with a double underscore). -/
def allMethodNames : List String :=
  ["CONNECT", "DELETE", "GET", "HEAD", "OPTIONS", "PATCH", "POST", "PUT", "TRACE"]

/-- `HTTPMethods(s)`: enum lookup by value.  This is an exact (case-sensitive)
match against the member values; `ValueError` is modelled by `none`. -/
def httpMethodOfValue? (s : String) : Option HTTPMethod :=
  if s = "GET" then some .GET
  else if s = "POST" then some .POST
  else if s = "PUT" then some .PUT
  else if s = "PATCH" then some .PATCH
  else if s = "DELETE" then some .DELETE
  else if s = "OPTIONS" then some .OPTIONS
  else if s = "HEAD" then some .HEAD
  else if s = "CONNECT" then some .CONNECT
  else if s = "TRACE" then some .TRACE
  else none

/-- A "method" value as it travels through the Python code: either an
`HTTPMethods` member or a plain string. -/
inductive MethodVal : Type where
  | tag (m : HTTPMethod)
  | str (s : String)
deriving DecidableEq, Repr

/-- Python `str.upper` restricted to the strings that occur here (ASCII). -/
def pyUpper (s : String) : String := String.mk (s.data.map Char.toUpper)

/-- `HTTPMethods.__eq__` as used by `in` / `not in` on a methods list: an
enum member equals another value iff it is the same member or its `value`
string equals the other operand. -/
def methodValMatches : MethodVal → MethodVal → Bool
  | .tag t, .tag m => t = m
  | .tag t, .str s => t.value = s
  | .str v, .tag m => v = m.value
  | .str v, .str s => v = s

/-- The exception taxonomy of fabricator.py (lines 69-119), plus the Python
built-in errors that the code can hit.  Messages are carried verbatim. -/
inductive FabError : Type where
  | usageError (msg : String)
  | notImplemented (msg : String)
  | paramValidation (param : String)
  | exception (msg : String)
  | pyError (msg : String)
deriving DecidableEq, Repr

/-- `check_valid_methods` (lines 46-56): walks the list; an `HTTPMethods`
member is skipped, a string is looked up by value and replaced in place by
the member; on lookup failure the original string is named in a
`FabricatorNotImplementedError`. -/
def check_valid_methods : List MethodVal → Except FabError (List MethodVal)
  | [] => .ok []
  | .tag m :: rest =>
    match check_valid_methods rest with
    | .ok rest' => .ok (.tag m :: rest')
    | .error e => .error e
  | .str s :: rest =>
    match httpMethodOfValue? s with
    | some m =>
      match check_valid_methods rest with
      | .ok rest' => .ok (.tag m :: rest')
      | .error e => .error e
    | none => .error (.notImplemented ("method \"" ++ s ++ "\" is not valid"))

/-- One entry's result under `check_valid_methods` when it succeeds. -/
def canonicalize : MethodVal → MethodVal
  | .tag m => .tag m
  | .str s =>
    match httpMethodOfValue? s with
    | some m => .tag m
    | none => .str s

/-- Whether one entry passes `check_valid_methods`. -/
def validMethodVal : MethodVal → Bool
  | .tag _ => true
  | .str s => (httpMethodOfValue? s).isSome

/-- A keyword-argument value (`str(v)` is total on the values modelled). -/
inductive Value : Type where
  | vstr (s : String)
  | vnat (n : Nat)
deriving DecidableEq, Repr

/-- Python `str(v)` for the modelled values, as a character list. -/
def Value.strOf : Value → List Char
  | .vstr s => s.data
  | .vnat n => (toString n).data

/-- The keyword arguments of a call: an association list with the insertion
order of the Python dict. -/
abbrev Kwargs : Type := List (String × Value)

/-- `name in kwargs`. -/
def hasKey (kw : Kwargs) (n : String) : Bool := kw.any (fun p => p.1 = n)

/-- `kwargs[name]` (first binding; Python dicts have unique keys). -/
def getKey? (kw : Kwargs) (n : String) : Option Value :=
  (List.find? (fun p => p.1 = n) kw).map (fun p => p.2)

/-- `del kwargs[name]`. -/
def delKey (kw : Kwargs) (n : String) : Kwargs :=
  List.filter (fun p => ¬ p.1 = n) kw

/-- The keyword arguments left after the token loop deleted the listed
names. -/
def removeKeys (kw : Kwargs) (ns : List String) : Kwargs :=
  List.filter (fun p => ! ns.contains p.1) kw

/-- The character class `[A-z_]` of the URL-parameter regex (line 292):
ASCII codes 65..122 — `A`-`Z`, `[`, backslash, `]`, `^`, the underscore,
a backtick, and `a`-`z` (`_` is code 95, inside the range). -/
def isIdentChar (c : Char) : Bool := 65 ≤ c.toNat && c.toNat ≤ 122

/-- Fuel-indexed body of `findTokens`; the fuel only makes the recursion
structural, `findTokens` always supplies enough. -/
def findTokensF : Nat → List Char → List (List Char)
  | 0, _ => []
  | _ + 1, [] => []
  | fuel + 1, c :: rest =>
    if c = ':' then
      match rest.takeWhile isIdentChar with
      | [] => findTokensF fuel rest
      | _ :: _ =>
        (':' :: rest.takeWhile isIdentChar) :: findTokensF fuel (rest.dropWhile isIdentChar)
    else findTokensF fuel rest

/-- `re.findall('(:[A-z_]+)', path)` (line 292): left-to-right non-overlapping
maximal matches of a colon followed by one or more `[A-z_]` characters. -/
def findTokens (l : List Char) : List (List Char) := findTokensF l.length l

/-- Fuel-indexed body of `replaceAll`; `replaceAll` always supplies enough
fuel. -/
def replaceAllF (pat rep : List Char) : Nat → List Char → List Char
  | 0, l => l
  | _ + 1, [] => []
  | fuel + 1, c :: rest =>
    if pat.isPrefixOf (c :: rest) then
      rep ++ replaceAllF pat rep fuel (rest.drop (pat.length - 1))
    else c :: replaceAllF pat rep fuel rest

/-- Python `str.replace(pat, rep)` on character lists: replace every
non-overlapping occurrence, scanning left to right.  (In this development
`pat` is always a `:`-token, hence non-empty; the `pat.length - 1` drop
equals dropping the matched pattern whenever `pat` is non-empty.) -/
def replaceAll (pat rep : List Char) (l : List Char) : List Char :=
  replaceAllF pat rep l.length l

/-- Every colon in the list opens a parameter token (is followed by at least
one `[A-z_]` character). -/
def colonsClean : List Char → Bool
  | [] => true
  | c :: rest =>
    (if c = ':' then !(rest.takeWhile isIdentChar).isEmpty else true) && colonsClean rest

/-- Fuel-indexed body of `specSubst`; `specSubst` always supplies enough
fuel. -/
def specSubstF (vals : List (List Char × List Char)) : Nat → List Char → List Char
  | 0, l => l
  | _ + 1, [] => []
  | fuel + 1, c :: rest =>
    if c = ':' then
      match rest.takeWhile isIdentChar with
      | [] => c :: specSubstF vals fuel rest
      | _ :: _ =>
        (((vals.find? (fun p => p.1 = ':' :: rest.takeWhile isIdentChar)).map Prod.snd).getD
            (':' :: rest.takeWhile isIdentChar)) ++
          specSubstF vals fuel (rest.dropWhile isIdentChar)
    else c :: specSubstF vals fuel rest

/-- Following the spec's words (§4.4 step 3 and the C3 sentence): scan the
path template once and replace each `:identifier` token occurrence by the
value bound to that token, independently of the other occurrences.  This is
the comparison point for the substitution the code actually performs. -/
def specSubst (vals : List (List Char × List Char)) (l : List Char) : List Char :=
  specSubstF vals l.length l

/-- `m[1:]`: the identifier of a `:identifier` token, without the colon. -/
def identOf (t : List Char) : String := String.mk (t.drop 1)

/-- The token-binding loop of `_make_request` (lines 291-299): for each token
`m` of the template in match order, require `m[1:]` among the keyword
arguments (else `FabricatorParamValidationError(param=m)`, the token with the
colon), record `url_params[m] = kwargs[m[1:]]` and delete `m[1:]` from the
keyword arguments. -/
def extractTokens : List (List Char) → Kwargs →
    Except FabError (List (List Char × Value) × Kwargs)
  | [], kw => .ok ([], kw)
  | t :: ts, kw =>
    match getKey? kw (identOf t) with
    | none => .error (.paramValidation (String.mk t))
    | some v =>
      match extractTokens ts (delKey kw (identOf t)) with
      | .ok (ps, kw') => .ok ((t, v) :: ps, kw')
      | .error e => .error e

/-- The per-node configuration of a `Fabricator` instance (lines 330-344),
minus the parent link and the children map, which the tree model keeps
structurally: `_base_url`, `_auth_handler`, `_headers`, `_default_handler`. -/
structure NodeCfg (H : Type) : Type where
  base_url : List Char
  auth_handler : Option H
  headers : Option (List (String × String))
  default_handler : Option H
deriving DecidableEq, Repr

/-- A `FabricatorEndpoint` (lines 168-190), minus the parent link: the
ancestor chain is passed to the dispatch functions explicitly, nearest parent
first, root last, exactly the order the `while current is not None` walks
visit. -/
structure Endpoint (H : Type) : Type where
  name : String
  path : List Char
  handler : Option H
  methods : List MethodVal
  auth_handler : Option H
  headers : Option (List (String × String))
  required_params : List String
deriving DecidableEq, Repr

/-- The local uppercasing `if isinstance(m, str): m = m.upper()` of
`_check_method` and `_make_request`. -/
def upperMethodVal : MethodVal → MethodVal
  | .tag m => .tag m
  | .str s => .str (pyUpper s)

/-- `_check_method` (lines 202-210) raises unless the methods list is falsy
(`None` or empty) or the (uppercased) argument equals some entry. -/
def check_method_ok (methods : List MethodVal) (m : MethodVal) : Bool :=
  methods.isEmpty || methods.any (fun t => methodValMatches t (upperMethodVal m))

/-- How `'{}'.format(m)` renders the (already uppercased) method in the
`_check_method` error message. -/
def methodFmtPy : MethodVal → String
  | .tag m => "HTTPMethods." ++ m.value
  | .str s => s

/-- The method normalization of `_make_request` (lines 275-283): a member
becomes its `value`, a string is uppercased. -/
def methodString : MethodVal → String
  | .tag m => m.value
  | .str s => pyUpper s

/-- The `while handler is None and current is not None` walk of
`_get_response_handler` (lines 212-223) over the ancestor chain. -/
def walkHandler {H : Type} : List (NodeCfg H) → Option H
  | [] => none
  | cfg :: rest =>
    match cfg.default_handler with
    | some h => some h
    | none => walkHandler rest

/-- The walk of `_get_auth_handler` (lines 225-236). -/
def walkAuth {H : Type} : List (NodeCfg H) → Option H
  | [] => none
  | cfg :: rest =>
    match cfg.auth_handler with
    | some h => some h
    | none => walkAuth rest

/-- The walk of `_get_headers` (lines 238-249). -/
def walkHeaders {H : Type} : List (NodeCfg H) → Option (List (String × String))
  | [] => none
  | cfg :: rest =>
    match cfg.headers with
    | some h => some h
    | none => walkHeaders rest

/-- `_get_response_handler`: the endpoint's own handler if set, else the
first non-`None` ancestor default, else the no-op pass-through (modelled as
`none`; `noop_response_handler` is the identity on responses). -/
def get_response_handler {H : Type} (e : Endpoint H) (chain : List (NodeCfg H)) : Option H :=
  match e.handler with
  | some h => some h
  | none => walkHandler chain

/-- `_get_auth_handler`: same resolution for the auth handler
(`make_auth_handler` only wraps the chosen function; `none` is the no-op
`noop_auth_handler`). -/
def get_auth_handler {H : Type} (e : Endpoint H) (chain : List (NodeCfg H)) : Option H :=
  match e.auth_handler with
  | some h => some h
  | none => walkAuth chain

/-- `_get_headers`: the endpoint's own map if set, else the first non-`None`
ancestor map, else the empty map (`headers or` turns a found-but-empty map
into the same empty map). -/
def get_headers {H : Type} (e : Endpoint H) (chain : List (NodeCfg H)) :
    List (String × String) :=
  match e.headers with
  | some h => h
  | none => (walkHeaders chain).getD []

/-- The substitution loop of `_construct_url` (lines 253-260): for each bound
token in insertion order, `path = path.replace(token, str(value))`. -/
def substLoop (ps : List (List Char × Value)) (path : List Char) : List Char :=
  ps.foldl (fun p kv => replaceAll kv.1 kv.2.strOf p) path

/-- The base-URL climb of `_construct_url` (lines 262-267):
`base_url = current._base_url + base_url` walking parents upward, which
concatenates the fragments in root-to-leaf order. -/
def climbBase {H : Type} (chain : List (NodeCfg H)) : List Char :=
  chain.foldl (fun acc cfg => cfg.base_url ++ acc) []

/-- `_construct_url` (lines 251-269). -/
def construct_url {H : Type} (e : Endpoint H) (chain : List (NodeCfg H))
    (url_params : List (List Char × Value)) : List Char :=
  climbBase chain ++ substLoop url_params e.path

/-- The keyword arguments that `requests.request` receives (line 314):
`json` for body-carrying methods, `params` for the rest, plus resolved auth,
headers, and the response handler applied to the transport's answer.  A
produced `Request` means the transport was reached. -/
structure Request (H : Type) : Type where
  method : String
  url : List Char
  headers : List (String × String)
  auth : Option H
  jsonBody : Option Kwargs
  queryParams : Option Kwargs
  handler : Option H
deriving DecidableEq

/-- `FabricatorEndpoint._make_request` (lines 271-315), up to the transport
boundary. -/
def make_request {H : Type} (e : Endpoint H) (chain : List (NodeCfg H))
    (m : MethodVal) (kw : Kwargs) : Except FabError (Request H) :=
  if ¬ check_method_ok e.methods m then
    .error (.notImplemented
      (methodFmtPy (upperMethodVal m) ++ " is not a valid method for the " ++
        String.mk e.path ++ " route"))
  else
    let method := methodString m
    match e.required_params.find? (fun p => ! hasKey kw p) with
    | some p => .error (.paramValidation p)
    | none =>
      match extractTokens (findTokens e.path) kw with
      | .error err => .error err
      | .ok (ps, kw') =>
        let isBodyMethod := method = "POST" ∨ method = "PUT" ∨ method = "PATCH"
        .ok
          { method := method
            url := construct_url e chain ps
            headers := get_headers e chain
            auth := get_auth_handler e chain
            jsonBody := if ¬ kw'.isEmpty ∧ isBodyMethod then some kw' else none
            queryParams := if ¬ kw'.isEmpty ∧ ¬ isBodyMethod then some kw' else none
            handler := get_response_handler e chain }

/- The node tree.  A `Fabricator` holds its own configuration, its
`_started` flag, and the `_endpoints` dict mapping a name to an endpoint or a
child `Fabricator` (a group); the dict is modelled as a custom association
list so the mutual recursion stays structural.  Parent links are implicit:
the walks that follow them are modelled top-down from the root. -/
mutual
inductive FTree (H : Type) : Type where
  | mk (cfg : NodeCfg H) (started : Bool) (children : Children H)

inductive Children (H : Type) : Type where
  | nil
  | consE (name : String) (e : Endpoint H) (rest : Children H)
  | consN (name : String) (t : FTree H) (rest : Children H)
end

/-- `self._endpoints[name]` lookup. -/
def Children.lookup {H : Type} : Children H → String → Option (Endpoint H ⊕ FTree H)
  | .nil, _ => none
  | .consE m e rest, n => if m = n then some (.inl e) else rest.lookup n
  | .consN m t rest, n => if m = n then some (.inr t) else rest.lookup n

/-- Rebuild one association-list cell for a value of either kind. -/
def Children.cell {H : Type} (n : String) (c : Endpoint H ⊕ FTree H) (rest : Children H) :
    Children H :=
  match c with
  | .inl e => .consE n e rest
  | .inr t => .consN n t rest

/-- `self._endpoints[name] = value`: a Python dict assignment replaces the
value under an existing key in place and otherwise appends the new key. -/
def Children.setc {H : Type} : Children H → String → Endpoint H ⊕ FTree H → Children H
  | .nil, n, c => Children.cell n c .nil
  | .consE m e rest, n, c =>
    if m = n then Children.cell n c rest else .consE m e (rest.setc n c)
  | .consN m t rest, n, c =>
    if m = n then Children.cell n c rest else .consN m t (rest.setc n c)

def FTree.cfg {H : Type} : FTree H → NodeCfg H
  | .mk cfg _ _ => cfg

def FTree.started {H : Type} : FTree H → Bool
  | .mk _ st _ => st

def FTree.children {H : Type} : FTree H → Children H
  | .mk _ _ ch => ch

/-- `_find_root` ends at the tree this model is rooted at, so `start()`
flips this tree's own flag. -/
def FTree.setRootStarted {H : Type} : FTree H → FTree H
  | .mk cfg _ ch => .mk cfg true ch

/- Navigate from the root along child-group names. -/
mutual
def FTree.nodeAt {H : Type} : FTree H → List String → Option (FTree H)
  | t, [] => some t
  | .mk _ _ ch, n :: rest => Children.nodeAtAux ch n rest

def Children.nodeAtAux {H : Type} : Children H → String → List String → Option (FTree H)
  | .nil, _, _ => none
  | .consE m _ r, n, rest => if m = n then none else Children.nodeAtAux r n rest
  | .consN m t r, n, rest => if m = n then t.nodeAt rest else Children.nodeAtAux r n rest
end

/- `_is_started` (lines 473-481) at the node addressed by `p`: walking the
parent chain to the root and testing each `_started` flag is, seen from the
root, the disjunction of the flags along the root-to-node path. -/
mutual
def FTree.isStartedAt {H : Type} : FTree H → List String → Bool
  | .mk _ st _, [] => st
  | .mk _ st ch, n :: rest => st || Children.startedAux ch n rest

def Children.startedAux {H : Type} : Children H → String → List String → Bool
  | .nil, _, _ => false
  | .consE m _ r, n, rest => if m = n then false else Children.startedAux r n rest
  | .consN m t r, n, rest => if m = n then t.isStartedAt rest else Children.startedAux r n rest
end

/- Every `_started` flag in the tree (the root's included) is false. -/
mutual
def FTree.allOff {H : Type} : FTree H → Bool
  | .mk _ st ch => !st && ch.allOff

def Children.allOff {H : Type} : Children H → Bool
  | .nil => true
  | .consE _ _ r => r.allOff
  | .consN _ t r => t.allOff && r.allOff
end

/-- Every flag strictly below the root is false — the only states the Python
code can reach, since groups are created unstarted and `start()` always sets
the root's flag. -/
def FTree.innerOff {H : Type} : FTree H → Bool
  | .mk _ _ ch => ch.allOff

/-- What a builder-surface operation invoked on a started node does and
returns.  `invoked c` records that the operation was re-dispatched through
started-mode resolution to the child `c` and called it (an endpoint call is a
dispatch, modelled by `make_request`; no variant mutates the tree). -/
inductive OpOut (H : Type) : Type where
  | ok
  | raised (e : FabError)
  | invoked (c : Endpoint H ⊕ FTree H)

/-- `self.__getattr_started(name)(**kwargs)` as every builder operation's
first line performs it once the tree is started (lines 357-365). -/
def opDelegate {H : Type} (ch : Children H) (name : String) : OpOut H :=
  match ch.lookup name with
  | some c => .invoked c
  | none => .raised (.notImplemented ("There is no method with the name \"" ++ name ++ "\""))

/-- The arguments `register(**kwargs)` reads (lines 513-543). -/
structure RegArgs (H : Type) : Type where
  name : String
  path : List Char
  methods : List MethodVal
  handler : Option H
  auth_handler : Option H
  headers : Option (List (String × String))
  required_params : List String

/-- Builder-mode `register` on one node's children map: validate the methods
(mutating the list in place), compute the slash-prefixed path into a local
that is never written back into `kwargs`, then build the endpoint from
`**kwargs` — so the endpoint keeps the caller's original path. -/
def register_local {H : Type} (ch : Children H) (a : RegArgs H) :
    Except FabError (Children H) :=
  match check_valid_methods a.methods with
  | .error e => .error e
  | .ok ms =>
    let _path_local := if a.path.head? = some '/' then a.path else '/' :: a.path
    .ok (ch.setc a.name (.inl ⟨a.name, a.path, a.handler, ms, a.auth_handler, a.headers,
      a.required_params⟩))

/-- The arguments `group(**kwargs)` reads (lines 423-446): `prefix` becomes
the new child's `base_url`. -/
structure GroupArgs (H : Type) : Type where
  name : String
  group_prefix : Option (List Char)
  handler : Option H
  auth_handler : Option H
  headers : Option (List (String × String))

/-- Builder-mode `group`: create a child `Fabricator` with this node as
parent and store it under `name`.  With no `prefix`, `Fabricator.__init__`
is missing its positional `base_url` — a `TypeError`. -/
def group_local {H : Type} (ch : Children H) (a : GroupArgs H) :
    Except FabError (Children H) :=
  match a.group_prefix with
  | none => .error (.pyError "__init__ missing required positional argument base_url")
  | some pre =>
    .ok (ch.setc a.name (.inr (.mk ⟨pre, a.auth_handler, a.headers, a.handler⟩ false .nil)))

/-- Builder-mode `add_header` (lines 377-399) on one node's configuration:
with a `name` key the pair `(kwargs[name], kwargs[value])` is merged,
otherwise the whole kwargs dict is; a missing `value` is a `KeyError`. -/
def add_header_local {H : Type} (cfg : NodeCfg H) (kw : List (String × String)) :
    Except FabError (NodeCfg H) :=
  let lk := fun n => (List.find? (fun p => p.1 = n) kw).map Prod.snd
  let d? : Option (List (String × String)) :=
    match lk "name" with
    | some nm =>
      match lk "value" with
      | some v => some [(nm, v)]
      | none => none
    | none => some kw
  match d? with
  | none => .error (.pyError "KeyError value")
  | some d =>
    let merged :=
      match cfg.headers with
      | none => d
      | some h => d.foldl (fun acc p => if acc.any (fun q => q.1 = p.1)
          then acc.map (fun q => if q.1 = p.1 then (q.1, p.2) else q) else acc ++ [p]) h
    .ok ⟨cfg.base_url, cfg.auth_handler, some merged, cfg.default_handler⟩

/-- Builder-mode `set_handler` (lines 401-410). -/
def set_handler_local {H : Type} (cfg : NodeCfg H) (h : Option H) : NodeCfg H :=
  ⟨cfg.base_url, cfg.auth_handler, cfg.headers, h⟩

/-- Builder-mode `set_auth_handler` (lines 412-421). -/
def set_auth_handler_local {H : Type} (cfg : NodeCfg H) (h : Option H) : NodeCfg H :=
  ⟨cfg.base_url, h, cfg.headers, cfg.default_handler⟩

/-- The shared extra options that `standard(with_param, **kwargs)` forwards
to `register` (lines 483-511). -/
structure StdExtras (H : Type) : Type where
  handler : Option H
  auth_handler : Option H
  headers : Option (List (String × String))
  required_params : List String

/-- Builder-mode `standard`: register `all` and `create` at `/` with the
shared extras, and, when `with_param` is truthy — `if with_param:` is a
Python truthiness test, so `None` and the empty string both skip the block —
`get`, `overwrite`, `update` and `delete` at `/:param`, these four without
the extras. -/
def standard_local {H : Type} (ch : Children H) (with_param : Option String)
    (ex : StdExtras H) : Except FabError (Children H) :=
  match register_local ch ⟨"all", "/".data, [.str "GET"], ex.handler, ex.auth_handler,
      ex.headers, ex.required_params⟩ with
  | .error e => .error e
  | .ok ch1 =>
    match register_local ch1 ⟨"create", "/".data, [.str "POST"], ex.handler, ex.auth_handler,
        ex.headers, ex.required_params⟩ with
    | .error e => .error e
    | .ok ch2 =>
      match with_param with
      | none => .ok ch2
      | some p =>
        if p = "" then .ok ch2 else
        let path := '/' :: ':' :: p.data
        match register_local ch2 ⟨"get", path, [.str "GET"], none, none, none, []⟩ with
        | .error e => .error e
        | .ok ch3 =>
          match register_local ch3 ⟨"overwrite", path, [.str "PUT"], none, none, none, []⟩ with
          | .error e => .error e
          | .ok ch4 =>
            match register_local ch4 ⟨"update", path, [.str "PATCH"], none, none, none, []⟩ with
            | .error e => .error e
            | .ok ch5 =>
              match register_local ch5 ⟨"delete", path, [.str "DELETE"], none, none, none, []⟩ with
              | .error e => .error e
              | .ok ch6 => .ok ch6

/- Generic navigation-and-update: run a local operation `f` at the node
addressed by `p`, where `f` receives the node's `_is_started()` result (the
disjunction of the flags met on the way down, the node's own included), and
returns the node's new configuration and children plus the outcome.  An
address that does not name a group node leaves the tree unchanged and raises
the `AttributeError`-like navigation failure (unreachable for the addresses
used by the claims). -/
mutual
def nodeUpdate {H : Type}
    (f : Bool → NodeCfg H → Children H → (NodeCfg H × Children H) × OpOut H)
    (anc : Bool) : FTree H → List String → FTree H × OpOut H
  | .mk cfg st ch, [] =>
    match f (anc || st) cfg ch with
    | ((cfg', ch'), out) => (.mk cfg' st ch', out)
  | .mk cfg st ch, n :: rest =>
    match childUpdate f (anc || st) ch n rest with
    | (ch', out) => (.mk cfg st ch', out)

def childUpdate {H : Type}
    (f : Bool → NodeCfg H → Children H → (NodeCfg H × Children H) × OpOut H)
    (anc : Bool) : Children H → String → List String → Children H × OpOut H
  | .nil, n, _ => (.nil, .raised (.pyError ("no node named " ++ n)))
  | .consE m e r, n, rest =>
    if m = n then (.consE m e r, .raised (.pyError ("no node named " ++ n)))
    else
      match childUpdate f anc r n rest with
      | (r', out) => (.consE m e r', out)
  | .consN m t r, n, rest =>
    if m = n then
      match nodeUpdate f anc t rest with
      | (t', out) => (.consN m t' r, out)
    else
      match childUpdate f anc r n rest with
      | (r', out) => (.consN m t r', out)
end

/-- The local behaviour of `register` (lines 513-543): delegate through
started-mode resolution when the tree is started, otherwise mutate the
children map. -/
def registerF {H : Type} (a : RegArgs H) (started : Bool) (cfg : NodeCfg H)
    (ch : Children H) : (NodeCfg H × Children H) × OpOut H :=
  if started then ((cfg, ch), opDelegate ch "register")
  else
    match register_local ch a with
    | .ok ch' => ((cfg, ch'), .ok)
    | .error e => ((cfg, ch), .raised e)

/-- The local behaviour of `group` (lines 423-446). -/
def groupF {H : Type} (a : GroupArgs H) (started : Bool) (cfg : NodeCfg H)
    (ch : Children H) : (NodeCfg H × Children H) × OpOut H :=
  if started then ((cfg, ch), opDelegate ch "group")
  else
    match group_local ch a with
    | .ok ch' => ((cfg, ch'), .ok)
    | .error e => ((cfg, ch), .raised e)

/-- The local behaviour of `add_header` (lines 377-399). -/
def addHeaderF {H : Type} (kw : List (String × String)) (started : Bool) (cfg : NodeCfg H)
    (ch : Children H) : (NodeCfg H × Children H) × OpOut H :=
  if started then ((cfg, ch), opDelegate ch "add_header")
  else
    match add_header_local cfg kw with
    | .ok cfg' => ((cfg', ch), .ok)
    | .error e => ((cfg, ch), .raised e)

/-- The local behaviour of `set_handler` (lines 401-410). -/
def setHandlerF {H : Type} (h : Option H) (started : Bool) (cfg : NodeCfg H)
    (ch : Children H) : (NodeCfg H × Children H) × OpOut H :=
  if started then ((cfg, ch), opDelegate ch "set_handler")
  else ((set_handler_local cfg h, ch), .ok)

/-- The local behaviour of `set_auth_handler` (lines 412-421). -/
def setAuthHandlerF {H : Type} (h : Option H) (started : Bool) (cfg : NodeCfg H)
    (ch : Children H) : (NodeCfg H × Children H) × OpOut H :=
  if started then ((cfg, ch), opDelegate ch "set_auth_handler")
  else ((set_auth_handler_local cfg h, ch), .ok)

/-- The local behaviour of `standard` (lines 483-511). -/
def standardF {H : Type} (with_param : Option String) (ex : StdExtras H) (started : Bool)
    (cfg : NodeCfg H) (ch : Children H) : (NodeCfg H × Children H) × OpOut H :=
  if started then ((cfg, ch), opDelegate ch "standard")
  else
    match standard_local ch with_param ex with
    | .ok ch' => ((cfg, ch'), .ok)
    | .error e => ((cfg, ch), .raised e)

/-- `register` invoked on the node addressed by `p`. -/
def registerAt {H : Type} (t : FTree H) (p : List String) (a : RegArgs H) :
    FTree H × OpOut H :=
  nodeUpdate (registerF a) false t p

/-- `group` invoked on the node addressed by `p`. -/
def groupAt {H : Type} (t : FTree H) (p : List String) (a : GroupArgs H) :
    FTree H × OpOut H :=
  nodeUpdate (groupF a) false t p

/-- `add_header` invoked on the node addressed by `p`. -/
def addHeaderAt {H : Type} (t : FTree H) (p : List String) (kw : List (String × String)) :
    FTree H × OpOut H :=
  nodeUpdate (addHeaderF kw) false t p

/-- `set_handler` invoked on the node addressed by `p`. -/
def setHandlerAt {H : Type} (t : FTree H) (p : List String) (h : Option H) :
    FTree H × OpOut H :=
  nodeUpdate (setHandlerF h) false t p

/-- `set_auth_handler` invoked on the node addressed by `p`. -/
def setAuthHandlerAt {H : Type} (t : FTree H) (p : List String) (h : Option H) :
    FTree H × OpOut H :=
  nodeUpdate (setAuthHandlerF h) false t p

/-- `standard` invoked on the node addressed by `p`. -/
def standardAt {H : Type} (t : FTree H) (p : List String) (with_param : Option String)
    (ex : StdExtras H) : FTree H × OpOut H :=
  nodeUpdate (standardF with_param ex) false t p

/-- `start` invoked on the node addressed by `p` (lines 448-461): if the tree
is already started the call is re-dispatched to a child named `start`;
otherwise `_find_root()` walks the parent links — which always ends at this
tree's root — and its `_started` flag is set. -/
def startAt {H : Type} (t : FTree H) (p : List String) : FTree H × OpOut H :=
  if t.isStartedAt p then
    (t, opDelegate (((t.nodeAt p).map FTree.children).getD .nil) "start")
  else (t.setRootStarted, .ok)

/-- The result of resolving a symbolic name on a node (`__getattr__` and the
two lookup modes, lines 346-375). -/
inductive GetattrResult (H : Type) : Type where
  | shortcut (m : HTTPMethod)
  | child (c : Endpoint H ⊕ FTree H)
  | err (e : FabError)

/-- The `UsageError` message of builder-mode resolution:
`', '.join(HTTPMethods.all()).lower()` interpolated into the format string. -/
def builderUsageMsg : String :=
  "Endpoint registrations use the methods \"" ++
    String.mk ((String.intercalate ", " allMethodNames).data.map Char.toLower) ++ "\""

/-- `__getattr_builder` (lines 346-355): the uppercased name must be one of
the nine member names; resolution yields `functools.partial(self.register,
methods=[HTTPMethods(name.upper())])`, the register-with-this-method
shortcut. -/
def getattr_builder {H : Type} (name : String) : GetattrResult H :=
  if allMethodNames.contains (pyUpper name) then
    match httpMethodOfValue? (pyUpper name) with
    | some m => .shortcut m
    | none => .err (.exception "unreachable: every listed name is a member value")
  else .err (.usageError builderUsageMsg)

/-- `__getattr_started` (lines 357-365): look the name up in the children
map; an absent name is a `FabricatorNotImplementedError`. -/
def getattr_started {H : Type} (ch : Children H) (name : String) : GetattrResult H :=
  match ch.lookup name with
  | some c => .child c
  | none => .err (.notImplemented ("There is no method with the name \"" ++ name ++ "\""))

/-- `__getattr__` (lines 367-375): started-mode lookup once `_is_started()`,
builder-mode method resolution before. -/
def fabGetattr {H : Type} (started : Bool) (ch : Children H) (name : String) :
    GetattrResult H :=
  if started then getattr_started ch name else getattr_builder name

/-! Helper lemmas shared by the claim theorems. -/

theorem length_dropWhile_ident_le (l : List Char) :
    (l.dropWhile isIdentChar).length ≤ l.length :=
  (List.dropWhile_sublist isIdentChar).length_le

theorem findTokensF_congr : ∀ (f1 f2 : Nat) (l : List Char), l.length ≤ f1 → l.length ≤ f2 →
    findTokensF f1 l = findTokensF f2 l
  | 0, f2, l, h1, _h2 => by
    have hl : l = [] := List.eq_nil_of_length_eq_zero (Nat.le_zero.mp h1)
    subst hl
    cases f2 <;> rfl
  | _ + 1, f2, [], _h1, _h2 => by cases f2 <;> rfl
  | _ + 1, 0, _ :: _, _h1, h2 => by simp at h2
  | f + 1, g + 1, c :: rest, h1, h2 => by
    have hr1 : rest.length ≤ f := by simpa using h1
    have hr2 : rest.length ≤ g := by simpa using h2
    have hd := length_dropWhile_ident_le rest
    simp only [findTokensF]
    by_cases hc : c = ':'
    · simp only [hc, if_true]
      cases htw : rest.takeWhile isIdentChar with
      | nil => simpa [htw] using findTokensF_congr f g rest hr1 hr2
      | cons a as =>
        simp only [htw]
        rw [findTokensF_congr f g (rest.dropWhile isIdentChar) (le_trans hd hr1)
          (le_trans hd hr2)]
    · simp only [hc, if_false]
      exact findTokensF_congr f g rest hr1 hr2

theorem findTokens_nil : findTokens [] = [] := rfl

theorem findTokens_cons (c : Char) (rest : List Char) :
    findTokens (c :: rest) =
      if c = ':' then
        match rest.takeWhile isIdentChar with
        | [] => findTokens rest
        | _ :: _ =>
          (':' :: rest.takeWhile isIdentChar) :: findTokens (rest.dropWhile isIdentChar)
      else findTokens rest := by
  show findTokensF (rest.length + 1) (c :: rest) = _
  simp only [findTokensF]
  by_cases hc : c = ':'
  · simp only [hc, if_true]
    cases htw : rest.takeWhile isIdentChar with
    | nil => simp [htw, findTokens]
    | cons a as =>
      simp only [htw, findTokens]
      rw [findTokensF_congr rest.length (rest.dropWhile isIdentChar).length
        (rest.dropWhile isIdentChar) (length_dropWhile_ident_le rest) le_rfl]
  · simp [hc, findTokens]

theorem replaceAllF_congr (pat rep : List Char) :
    ∀ (f1 f2 : Nat) (l : List Char), l.length ≤ f1 → l.length ≤ f2 →
      replaceAllF pat rep f1 l = replaceAllF pat rep f2 l
  | 0, f2, l, h1, _h2 => by
    have hl : l = [] := List.eq_nil_of_length_eq_zero (Nat.le_zero.mp h1)
    subst hl
    cases f2 <;> rfl
  | _ + 1, f2, [], _h1, _h2 => by cases f2 <;> rfl
  | _ + 1, 0, _ :: _, _h1, h2 => by simp at h2
  | f + 1, g + 1, c :: rest, h1, h2 => by
    have hr1 : rest.length ≤ f := by simpa using h1
    have hr2 : rest.length ≤ g := by simpa using h2
    have hd : (rest.drop (pat.length - 1)).length ≤ rest.length := by
      simp [List.length_drop]
    simp only [replaceAllF]
    by_cases hp : pat.isPrefixOf (c :: rest)
    · simp only [hp, if_true]
      rw [replaceAllF_congr pat rep f g (rest.drop (pat.length - 1)) (le_trans hd hr1)
        (le_trans hd hr2)]
    · simp only [hp, Bool.false_eq_true, if_false]
      rw [replaceAllF_congr pat rep f g rest hr1 hr2]

theorem replaceAll_nil (pat rep : List Char) : replaceAll pat rep [] = [] := rfl

theorem replaceAll_cons (pat rep : List Char) (c : Char) (rest : List Char) :
    replaceAll pat rep (c :: rest) =
      if pat.isPrefixOf (c :: rest) then
        rep ++ replaceAll pat rep (rest.drop (pat.length - 1))
      else c :: replaceAll pat rep rest := by
  show replaceAllF pat rep (rest.length + 1) (c :: rest) = _
  simp only [replaceAllF]
  by_cases hp : pat.isPrefixOf (c :: rest)
  · simp only [hp, if_true, replaceAll]
    rw [replaceAllF_congr pat rep rest.length (rest.drop (pat.length - 1)).length
      (rest.drop (pat.length - 1)) (by simp [List.length_drop]) le_rfl]
  · simp [hp, replaceAll]

theorem specSubstF_congr (vals : List (List Char × List Char)) :
    ∀ (f1 f2 : Nat) (l : List Char), l.length ≤ f1 → l.length ≤ f2 →
      specSubstF vals f1 l = specSubstF vals f2 l
  | 0, f2, l, h1, _h2 => by
    have hl : l = [] := List.eq_nil_of_length_eq_zero (Nat.le_zero.mp h1)
    subst hl
    cases f2 <;> rfl
  | _ + 1, f2, [], _h1, _h2 => by cases f2 <;> rfl
  | _ + 1, 0, _ :: _, _h1, h2 => by simp at h2
  | f + 1, g + 1, c :: rest, h1, h2 => by
    have hr1 : rest.length ≤ f := by simpa using h1
    have hr2 : rest.length ≤ g := by simpa using h2
    have hd := length_dropWhile_ident_le rest
    simp only [specSubstF]
    by_cases hc : c = ':'
    · simp only [hc, if_true]
      cases htw : rest.takeWhile isIdentChar with
      | nil => simpa [htw] using specSubstF_congr vals f g rest hr1 hr2
      | cons a as =>
        simp only [htw]
        rw [specSubstF_congr vals f g (rest.dropWhile isIdentChar) (le_trans hd hr1)
          (le_trans hd hr2)]
    · simp only [hc, if_false]
      rw [specSubstF_congr vals f g rest hr1 hr2]

theorem specSubst_nil (vals : List (List Char × List Char)) : specSubst vals [] = [] := rfl

theorem specSubst_cons (vals : List (List Char × List Char)) (c : Char) (rest : List Char) :
    specSubst vals (c :: rest) =
      if c = ':' then
        match rest.takeWhile isIdentChar with
        | [] => c :: specSubst vals rest
        | _ :: _ =>
          (((vals.find? (fun p => p.1 = ':' :: rest.takeWhile isIdentChar)).map Prod.snd).getD
              (':' :: rest.takeWhile isIdentChar)) ++
            specSubst vals (rest.dropWhile isIdentChar)
      else c :: specSubst vals rest := by
  show specSubstF vals (rest.length + 1) (c :: rest) = _
  simp only [specSubstF]
  by_cases hc : c = ':'
  · simp only [hc, if_true]
    cases htw : rest.takeWhile isIdentChar with
    | nil => simp [htw, specSubst]
    | cons a as =>
      simp only [htw, specSubst]
      rw [specSubstF_congr vals rest.length (rest.dropWhile isIdentChar).length
        (rest.dropWhile isIdentChar) (length_dropWhile_ident_le rest) le_rfl]
  · simp [hc, specSubst]

theorem setc_lookup_self {H : Type} :
    ∀ (ch : Children H) (n : String) (c : Endpoint H ⊕ FTree H),
      (ch.setc n c).lookup n = some c
  | .nil, n, c => by
    cases c <;> simp [Children.setc, Children.cell, Children.lookup]
  | .consE m e rest, n, c => by
    by_cases h : m = n
    · cases c <;> simp [Children.setc, Children.cell, Children.lookup, h]
    · simp [Children.setc, Children.lookup, h, setc_lookup_self rest n c]
  | .consN m t rest, n, c => by
    by_cases h : m = n
    · cases c <;> simp [Children.setc, Children.cell, Children.lookup, h]
    · simp [Children.setc, Children.lookup, h, setc_lookup_self rest n c]

theorem setc_lookup_other {H : Type} :
    ∀ (ch : Children H) (n n' : String) (c : Endpoint H ⊕ FTree H), n' ≠ n →
      (ch.setc n c).lookup n' = ch.lookup n'
  | .nil, n, n', c, hne => by
    cases c <;> simp [Children.setc, Children.cell, Children.lookup, hne.symm]
  | .consE m e rest, n, n', c, hne => by
    by_cases h : m = n
    · subst h
      cases c <;> simp [Children.setc, Children.cell, Children.lookup, hne.symm]
    · simp [Children.setc, Children.lookup, h, setc_lookup_other rest n n' c hne]
  | .consN m t rest, n, n', c, hne => by
    by_cases h : m = n
    · subst h
      cases c <;> simp [Children.setc, Children.cell, Children.lookup, hne.symm]
    · simp [Children.setc, Children.lookup, h, setc_lookup_other rest n n' c hne]

/-- C1 (confirmed): symbolic name resolution on a node is dual-mode.  On a
node whose tree is not started, a name whose uppercasing equals a canonical
method value resolves to the register-with-that-method shortcut, and any
other name raises `UsageError` with the message enumerating the nine valid
method names; on a started node a name bound in the children map resolves to
that endpoint or child node, and any other name raises
`NotImplementedError`. -/
theorem c1_dual_mode_resolution {H : Type} (ch : Children H) (name : String) :
    (∀ m : HTTPMethod, pyUpper name = m.value →
      fabGetattr false ch name = GetattrResult.shortcut m)
    ∧ ((∀ m : HTTPMethod, pyUpper name ≠ m.value) →
      fabGetattr false ch name = .err (.usageError builderUsageMsg))
    ∧ (∀ c, ch.lookup name = some c → fabGetattr true ch name = .child c)
    ∧ (ch.lookup name = none →
      fabGetattr true ch name =
        .err (.notImplemented ("There is no method with the name \"" ++ name ++ "\""))) := by
  refine ⟨?_, ?_, ?_, ?_⟩
  · intro m h
    cases m <;>
      simp [fabGetattr, getattr_builder, h, HTTPMethod.value, allMethodNames,
        httpMethodOfValue?]
  · intro h
    have hmem : pyUpper name ∉ allMethodNames := by
      intro hmem
      simp only [allMethodNames, List.mem_cons, List.not_mem_nil, or_false] at hmem
      rcases hmem with h1 | h1 | h1 | h1 | h1 | h1 | h1 | h1 | h1
      · exact h .CONNECT h1
      · exact h .DELETE h1
      · exact h .GET h1
      · exact h .HEAD h1
      · exact h .OPTIONS h1
      · exact h .PATCH h1
      · exact h .POST h1
      · exact h .PUT h1
      · exact h .TRACE h1
    have hc : ¬ (allMethodNames.contains (pyUpper name) = true) := by
      simpa using hmem
    show (getattr_builder name : GetattrResult H) = _
    unfold getattr_builder
    rw [if_neg hc]
  · intro c h
    simp [fabGetattr, getattr_started, h]
  · intro h
    simp [fabGetattr, getattr_started, h]

/-- Witness for C1: concrete instances of all four branches. -/
theorem c1_witness :
    fabGetattr false (Children.nil : Children Nat) "Get" = GetattrResult.shortcut .GET
    ∧ fabGetattr false (Children.nil : Children Nat) "all" =
        .err (.usageError builderUsageMsg)
    ∧ fabGetattr true
        (Children.consE "x" (⟨"x", "/x".data, none, [.tag .GET], none, none, []⟩ :
          Endpoint Nat) .nil) "x" =
        .child (.inl ⟨"x", "/x".data, none, [.tag .GET], none, none, []⟩)
    ∧ fabGetattr true (Children.nil : Children Nat) "y" =
        .err (.notImplemented "There is no method with the name \"y\"") := by
  refine ⟨?_, ?_, ?_, ?_⟩
  · exact (c1_dual_mode_resolution Children.nil "Get").1 .GET (by decide)
  · exact (c1_dual_mode_resolution Children.nil "all").2.1 (by intro m; cases m <;> decide)
  · exact (c1_dual_mode_resolution _ "x").2.2.1 _ rfl
  · exact (c1_dual_mode_resolution Children.nil "y").2.2.2 rfl

/-- C4 (code_bug): the slash normalization in `register` is computed into a
rebound local that is never written back into the `kwargs` the endpoint is
built from, so `register(path='x')` stores the path `x`, not `/x`, and the
dispatch URL concatenates the base with `x`.  `register(path='/x')` stores
`/x`: the two registrations do not produce the same effective path. -/
theorem c4_dead_slash_normalization :
    register_local (H := Unit) .nil ⟨"x", "x".data, [.str "GET"], none, none, none, []⟩ =
      .ok (.consE "x" ⟨"x", "x".data, none, [.tag .GET], none, none, []⟩ .nil)
    ∧ register_local (H := Unit) .nil ⟨"x", "/x".data, [.str "GET"], none, none, none, []⟩ =
      .ok (.consE "x" ⟨"x", "/x".data, none, [.tag .GET], none, none, []⟩ .nil)
    ∧ ("x".data ≠ "/x".data)
    ∧ make_request (H := Unit) ⟨"x", "x".data, none, [.tag .GET], none, none, []⟩
        [⟨"http://h".data, none, none, none⟩] (.tag .GET) [] =
      .ok ⟨"GET", "http://hx".data, [], none, none, none, none⟩
    ∧ make_request (H := Unit) ⟨"x", "/x".data, none, [.tag .GET], none, none, []⟩
        [⟨"http://h".data, none, none, none⟩] (.tag .GET) [] =
      .ok ⟨"GET", "http://h/x".data, [], none, none, none, none⟩ := by
  refine ⟨rfl, rfl, by decide, by decide, by decide⟩

theorem walkHeaders_nearest {H : Type} (pre rest : List (NodeCfg H)) (cfg : NodeCfg H)
    (hh : List (String × String)) (hpre : ∀ c ∈ pre, c.headers = none)
    (hc : cfg.headers = some hh) : walkHeaders (pre ++ cfg :: rest) = some hh := by
  induction pre with
  | nil => simp [walkHeaders, hc]
  | cons c pre ih =>
    have h0 : c.headers = none := hpre c (by simp)
    simp only [List.cons_append, walkHeaders, h0]
    exact ih (fun d hd => hpre d (by simp [hd]))

theorem walkHeaders_none {H : Type} (chain : List (NodeCfg H))
    (h : ∀ c ∈ chain, c.headers = none) : walkHeaders chain = none := by
  induction chain with
  | nil => rfl
  | cons c chain ih =>
    have h0 : c.headers = none := h c (by simp)
    simp only [walkHeaders, h0]
    exact ih (fun d hd => h d (by simp [hd]))

theorem walkHandler_nearest {H : Type} (pre rest : List (NodeCfg H)) (cfg : NodeCfg H)
    (hh : H) (hpre : ∀ c ∈ pre, c.default_handler = none)
    (hc : cfg.default_handler = some hh) : walkHandler (pre ++ cfg :: rest) = some hh := by
  induction pre with
  | nil => simp [walkHandler, hc]
  | cons c pre ih =>
    have h0 : c.default_handler = none := hpre c (by simp)
    simp only [List.cons_append, walkHandler, h0]
    exact ih (fun d hd => hpre d (by simp [hd]))

theorem walkHandler_none {H : Type} (chain : List (NodeCfg H))
    (h : ∀ c ∈ chain, c.default_handler = none) : walkHandler chain = none := by
  induction chain with
  | nil => rfl
  | cons c chain ih =>
    have h0 : c.default_handler = none := h c (by simp)
    simp only [walkHandler, h0]
    exact ih (fun d hd => h d (by simp [hd]))

theorem walkAuth_nearest {H : Type} (pre rest : List (NodeCfg H)) (cfg : NodeCfg H)
    (hh : H) (hpre : ∀ c ∈ pre, c.auth_handler = none)
    (hc : cfg.auth_handler = some hh) : walkAuth (pre ++ cfg :: rest) = some hh := by
  induction pre with
  | nil => simp [walkAuth, hc]
  | cons c pre ih =>
    have h0 : c.auth_handler = none := hpre c (by simp)
    simp only [List.cons_append, walkAuth, h0]
    exact ih (fun d hd => hpre d (by simp [hd]))

theorem walkAuth_none {H : Type} (chain : List (NodeCfg H))
    (h : ∀ c ∈ chain, c.auth_handler = none) : walkAuth chain = none := by
  induction chain with
  | nil => rfl
  | cons c chain ih =>
    have h0 : c.auth_handler = none := h c (by simp)
    simp only [walkAuth, h0]
    exact ih (fun d hd => h d (by simp [hd]))

/-- C5 (confirmed): the effective header map, auth handler and response
handler at dispatch are the endpoint's own value when set; otherwise the
nearest ancestor's non-null value on the walk toward the root (the chain
lists ancestors nearest-first); otherwise the empty map for headers and the
no-op pass-through (modelled `none`) for the two handlers. -/
theorem c5_inherited_configuration {H : Type} (e : Endpoint H)
    (chain pre rest : List (NodeCfg H)) (cfg : NodeCfg H) :
    (∀ h, e.headers = some h → get_headers e chain = h)
    ∧ (∀ hh, e.headers = none → (∀ c ∈ pre, c.headers = none) → cfg.headers = some hh →
        get_headers e (pre ++ cfg :: rest) = hh)
    ∧ (e.headers = none → (∀ c ∈ chain, c.headers = none) → get_headers e chain = [])
    ∧ (∀ h, e.handler = some h → get_response_handler e chain = some h)
    ∧ (∀ hh, e.handler = none → (∀ c ∈ pre, c.default_handler = none) →
        cfg.default_handler = some hh →
        get_response_handler e (pre ++ cfg :: rest) = some hh)
    ∧ (e.handler = none → (∀ c ∈ chain, c.default_handler = none) →
        get_response_handler e chain = none)
    ∧ (∀ h, e.auth_handler = some h → get_auth_handler e chain = some h)
    ∧ (∀ hh, e.auth_handler = none → (∀ c ∈ pre, c.auth_handler = none) →
        cfg.auth_handler = some hh → get_auth_handler e (pre ++ cfg :: rest) = some hh)
    ∧ (e.auth_handler = none → (∀ c ∈ chain, c.auth_handler = none) →
        get_auth_handler e chain = none) := by
  refine ⟨?_, ?_, ?_, ?_, ?_, ?_, ?_, ?_, ?_⟩
  · intro h hh
    simp [get_headers, hh]
  · intro hh h0 hpre hc
    simp [get_headers, h0, walkHeaders_nearest pre rest cfg hh hpre hc]
  · intro h0 hall
    simp [get_headers, h0, walkHeaders_none chain hall]
  · intro h hh
    simp [get_response_handler, hh]
  · intro hh h0 hpre hc
    simp [get_response_handler, h0, walkHandler_nearest pre rest cfg hh hpre hc]
  · intro h0 hall
    simp [get_response_handler, h0, walkHandler_none chain hall]
  · intro h hh
    simp [get_auth_handler, hh]
  · intro hh h0 hpre hc
    simp [get_auth_handler, h0, walkAuth_nearest pre rest cfg hh hpre hc]
  · intro h0 hall
    simp [get_auth_handler, h0, walkAuth_none chain hall]

/-- Witness for C5: a two-level chain exercising own, inherited and default
resolution. -/
theorem c5_witness :
    get_headers (H := Nat) ⟨"e", "/e".data, none, [.tag .GET], none,
        some [("A", "1")], []⟩ [⟨"/b".data, none, some [("B", "2")], none⟩] = [("A", "1")]
    ∧ get_headers (H := Nat) ⟨"e", "/e".data, none, [.tag .GET], none, none, []⟩
        [⟨"/b".data, none, none, none⟩, ⟨"/r".data, none, some [("B", "2")], some 5⟩] =
        [("B", "2")]
    ∧ get_headers (H := Nat) ⟨"e", "/e".data, none, [.tag .GET], none, none, []⟩
        [⟨"/b".data, none, none, none⟩] = []
    ∧ get_response_handler (H := Nat) ⟨"e", "/e".data, none, [.tag .GET], none, none, []⟩
        [⟨"/b".data, none, none, none⟩, ⟨"/r".data, none, some [("B", "2")], some 5⟩] = some 5
    ∧ get_response_handler (H := Nat) ⟨"e", "/e".data, none, [.tag .GET], none, none, []⟩
        [⟨"/b".data, none, none, none⟩] = none
    ∧ get_auth_handler (H := Nat) ⟨"e", "/e".data, none, [.tag .GET], some 3, none, []⟩
        [⟨"/b".data, some 4, none, none⟩] = some 3 := by
  have eOwnH : Endpoint Nat :=
    ⟨"e", "/e".data, none, [.tag .GET], none, some [("A", "1")], []⟩
  refine ⟨?_, ?_, ?_, ?_, ?_, ?_⟩
  · exact (c5_inherited_configuration
      (⟨"e", "/e".data, none, [.tag .GET], none, some [("A", "1")], []⟩ : Endpoint Nat)
      [⟨"/b".data, none, some [("B", "2")], none⟩] [] [] ⟨"".data, none, none, none⟩).1
      _ rfl
  · exact (c5_inherited_configuration
      (⟨"e", "/e".data, none, [.tag .GET], none, none, []⟩ : Endpoint Nat)
      [] [⟨"/b".data, none, none, none⟩] []
      ⟨"/r".data, none, some [("B", "2")], some 5⟩).2.1 _ rfl (by decide) rfl
  · exact (c5_inherited_configuration
      (⟨"e", "/e".data, none, [.tag .GET], none, none, []⟩ : Endpoint Nat)
      [⟨"/b".data, none, none, none⟩] [] [] ⟨"".data, none, none, none⟩).2.2.1 rfl
      (by intro c hc; simp at hc; simp [hc])
  · exact (c5_inherited_configuration
      (⟨"e", "/e".data, none, [.tag .GET], none, none, []⟩ : Endpoint Nat)
      [] [⟨"/b".data, none, none, none⟩] []
      ⟨"/r".data, none, some [("B", "2")], some 5⟩).2.2.2.2.1 _ rfl (by decide) rfl
  · exact (c5_inherited_configuration
      (⟨"e", "/e".data, none, [.tag .GET], none, none, []⟩ : Endpoint Nat)
      [⟨"/b".data, none, none, none⟩] [] [] ⟨"".data, none, none, none⟩).2.2.2.2.2.1 rfl
      (by intro c hc; simp at hc; simp [hc])
  · exact (c5_inherited_configuration
      (⟨"e", "/e".data, none, [.tag .GET], some 3, none, []⟩ : Endpoint Nat)
      [⟨"/b".data, some 4, none, none⟩] [] [] ⟨"".data, none, none, none⟩).2.2.2.2.2.2.1
      _ rfl

/-- C7 counterexample: the claim says registration-time method validation is
case-insensitive, but `HTTPMethods('get')` is an exact value lookup, so the
lowercase spelling of a canonical method is rejected (and named in the
error), not replaced by the canonical tag. -/
theorem c7_counterexample :
    check_valid_methods [.str "get"] =
      .error (.notImplemented "method \"get\" is not valid")
    ∧ check_valid_methods [.str "get"] ≠ .ok [.tag .GET]
    ∧ pyUpper "get" = "GET" := by
  refine ⟨rfl, by decide, by decide⟩

/-- C7 (corrected): registration-time validation accepts a canonical tag
unchanged and replaces the exact canonical spelling in place by its tag, for
all nine methods; every other string — lowercase and mixed-case spellings of
canonical names included — raises `NotImplementedError` naming the offending
value, at the first such entry. -/
theorem c7_exact_spelling_validation :
    (∀ m : HTTPMethod, canonicalize (.str m.value) = .tag m
      ∧ canonicalize (.tag m) = .tag m
      ∧ validMethodVal (.str m.value) = true)
    ∧ (∀ ms : List MethodVal, (∀ v ∈ ms, validMethodVal v = true) →
        check_valid_methods ms = .ok (ms.map canonicalize))
    ∧ (∀ (l1 : List MethodVal) (s : String) (l2 : List MethodVal),
        (∀ v ∈ l1, validMethodVal v = true) → httpMethodOfValue? s = none →
        check_valid_methods (l1 ++ .str s :: l2) =
          .error (.notImplemented ("method \"" ++ s ++ "\" is not valid")))
    ∧ (∀ s : String, (∀ m : HTTPMethod, s ≠ m.value) → httpMethodOfValue? s = none) := by
  refine ⟨?_, ?_, ?_, ?_⟩
  · intro m
    cases m <;> exact ⟨rfl, rfl, rfl⟩
  · intro ms hv
    induction ms with
    | nil => rfl
    | cons v rest ih =>
      have hrest := ih (fun w hw => hv w (by simp [hw]))
      cases v with
      | tag m => simp [check_valid_methods, hrest, canonicalize]
      | str s =>
        have hs : (httpMethodOfValue? s).isSome = true := hv (.str s) (by simp)
        obtain ⟨m, hm⟩ := Option.isSome_iff_exists.mp hs
        simp [check_valid_methods, hm, hrest, canonicalize]
  · intro l1 s l2 hv hnone
    induction l1 with
    | nil => simp [check_valid_methods, hnone]
    | cons v rest ih =>
      have hrest := ih (fun w hw => hv w (by simp [hw]))
      cases v with
      | tag m => simp [check_valid_methods, hrest]
      | str u =>
        have hu : (httpMethodOfValue? u).isSome = true := hv (.str u) (by simp)
        obtain ⟨m, hm⟩ := Option.isSome_iff_exists.mp hu
        simp [check_valid_methods, hm, hrest]
  · intro s h
    have h1 : ¬ (s = "GET") := h .GET
    have h2 : ¬ (s = "POST") := h .POST
    have h3 : ¬ (s = "PUT") := h .PUT
    have h4 : ¬ (s = "PATCH") := h .PATCH
    have h5 : ¬ (s = "DELETE") := h .DELETE
    have h6 : ¬ (s = "OPTIONS") := h .OPTIONS
    have h7 : ¬ (s = "HEAD") := h .HEAD
    have h8 : ¬ (s = "CONNECT") := h .CONNECT
    have h9 : ¬ (s = "TRACE") := h .TRACE
    simp only [httpMethodOfValue?, if_neg h1, if_neg h2, if_neg h3, if_neg h4, if_neg h5,
      if_neg h6, if_neg h7, if_neg h8, if_neg h9]

/-- Witness for C7: the exact spelling list is canonicalized in place; a
mixed-case spelling is rejected naming the value. -/
theorem c7_witness :
    check_valid_methods [.str "PUT", .tag .GET] =
      .ok ([MethodVal.str "PUT", MethodVal.tag .GET].map canonicalize)
    ∧ check_valid_methods [.tag .GET, .str "Put"] =
      .error (.notImplemented "method \"Put\" is not valid") := by
  constructor
  · exact c7_exact_spelling_validation.2.1 [.str "PUT", .tag .GET] (by decide)
  · exact c7_exact_spelling_validation.2.2.1 [.tag .GET] "Put" [] (by decide) rfl

/-- C8 counterexample: `standard(with_param='id', handler=7)` forwards the
shared handler to `all` and `create` only; the parameterized `get` route is
registered without it, so it does not receive the same extra options the
claim promises. -/
theorem c8_counterexample :
    standard_local (H := Nat) .nil (some "id") ⟨some 7, none, none, []⟩ =
      .ok (.consE "all" ⟨"all", "/".data, some 7, [.tag .GET], none, none, []⟩
        (.consE "create" ⟨"create", "/".data, some 7, [.tag .POST], none, none, []⟩
          (.consE "get" ⟨"get", "/:id".data, none, [.tag .GET], none, none, []⟩
            (.consE "overwrite" ⟨"overwrite", "/:id".data, none, [.tag .PUT], none, none, []⟩
              (.consE "update" ⟨"update", "/:id".data, none, [.tag .PATCH], none, none, []⟩
                (.consE "delete" ⟨"delete", "/:id".data, none, [.tag .DELETE], none, none, []⟩
                  .nil))))))
    ∧ (none : Option Nat) ≠ some 7 := by
  exact ⟨rfl, by decide⟩

/-- C8 (corrected): `standard()` registers `all` (GET `/`) and `create`
(POST `/`) with the shared extra options; when the path-parameter name is
given and truthy (non-empty — `if with_param:` treats `None` and `''` both
as false) it additionally registers `get`, `overwrite`, `update` and
`delete` at `/:param`, but these four receive no extra options; with no
parameter name, or an empty one, no parameterized route is created.  Other
children are untouched. -/
theorem c8_standard_routes {H : Type} (ch : Children H) (P : String) (ex : StdExtras H) :
    standard_local ch none ex =
      .ok ((ch.setc "all" (.inl ⟨"all", "/".data, ex.handler, [.tag .GET], ex.auth_handler,
          ex.headers, ex.required_params⟩)).setc "create"
        (.inl ⟨"create", "/".data, ex.handler, [.tag .POST], ex.auth_handler, ex.headers,
          ex.required_params⟩))
    ∧ standard_local ch (some "") ex =
      .ok ((ch.setc "all" (.inl ⟨"all", "/".data, ex.handler, [.tag .GET], ex.auth_handler,
          ex.headers, ex.required_params⟩)).setc "create"
        (.inl ⟨"create", "/".data, ex.handler, [.tag .POST], ex.auth_handler, ex.headers,
          ex.required_params⟩))
    ∧ (P ≠ "" → ∃ ch6, standard_local ch (some P) ex = .ok ch6
      ∧ ch6.lookup "all" = some (.inl ⟨"all", "/".data, ex.handler, [.tag .GET],
          ex.auth_handler, ex.headers, ex.required_params⟩)
      ∧ ch6.lookup "create" = some (.inl ⟨"create", "/".data, ex.handler, [.tag .POST],
          ex.auth_handler, ex.headers, ex.required_params⟩)
      ∧ ch6.lookup "get" =
          some (.inl ⟨"get", '/' :: ':' :: P.data, none, [.tag .GET], none, none, []⟩)
      ∧ ch6.lookup "overwrite" =
          some (.inl ⟨"overwrite", '/' :: ':' :: P.data, none, [.tag .PUT], none, none, []⟩)
      ∧ ch6.lookup "update" =
          some (.inl ⟨"update", '/' :: ':' :: P.data, none, [.tag .PATCH], none, none, []⟩)
      ∧ ch6.lookup "delete" =
          some (.inl ⟨"delete", '/' :: ':' :: P.data, none, [.tag .DELETE], none, none, []⟩)
      ∧ ∀ n, n ≠ "all" → n ≠ "create" → n ≠ "get" → n ≠ "overwrite" → n ≠ "update" →
          n ≠ "delete" → ch6.lookup n = ch.lookup n) := by
  refine ⟨rfl, rfl, ?_⟩
  intro hP
  have hok : standard_local ch (some P) ex = .ok
      (((((((ch.setc "all" (.inl ⟨"all", "/".data, ex.handler, [.tag .GET], ex.auth_handler,
          ex.headers, ex.required_params⟩)).setc "create"
        (.inl ⟨"create", "/".data, ex.handler, [.tag .POST], ex.auth_handler, ex.headers,
          ex.required_params⟩)).setc "get"
        (.inl ⟨"get", '/' :: ':' :: P.data, none, [.tag .GET], none, none, []⟩)).setc
          "overwrite"
        (.inl ⟨"overwrite", '/' :: ':' :: P.data, none, [.tag .PUT], none, none, []⟩)).setc
          "update"
        (.inl ⟨"update", '/' :: ':' :: P.data, none, [.tag .PATCH], none, none, []⟩)).setc
          "delete"
        (.inl ⟨"delete", '/' :: ':' :: P.data, none, [.tag .DELETE], none, none, []⟩))) := by
    simp [standard_local, register_local, check_valid_methods, httpMethodOfValue?, hP]
  rw [hok]
  refine ⟨_, rfl, ?_, ?_, ?_, ?_, ?_, ?_, ?_⟩
  · rw [setc_lookup_other _ "delete" "all" _ (by decide),
      setc_lookup_other _ "update" "all" _ (by decide),
      setc_lookup_other _ "overwrite" "all" _ (by decide),
      setc_lookup_other _ "get" "all" _ (by decide),
      setc_lookup_other _ "create" "all" _ (by decide), setc_lookup_self]
  · rw [setc_lookup_other _ "delete" "create" _ (by decide),
      setc_lookup_other _ "update" "create" _ (by decide),
      setc_lookup_other _ "overwrite" "create" _ (by decide),
      setc_lookup_other _ "get" "create" _ (by decide), setc_lookup_self]
  · rw [setc_lookup_other _ "delete" "get" _ (by decide),
      setc_lookup_other _ "update" "get" _ (by decide),
      setc_lookup_other _ "overwrite" "get" _ (by decide), setc_lookup_self]
  · rw [setc_lookup_other _ "delete" "overwrite" _ (by decide),
      setc_lookup_other _ "update" "overwrite" _ (by decide), setc_lookup_self]
  · rw [setc_lookup_other _ "delete" "update" _ (by decide), setc_lookup_self]
  · rw [setc_lookup_self]
  · intro n h1 h2 h3 h4 h5 h6
    rw [setc_lookup_other _ "delete" n _ h6, setc_lookup_other _ "update" n _ h5,
      setc_lookup_other _ "overwrite" n _ h4, setc_lookup_other _ "get" n _ h3,
      setc_lookup_other _ "create" n _ h2, setc_lookup_other _ "all" n _ h1]

/-- Witness for C8: the parameterized registration at a concrete node. -/
theorem c8_witness :
    ∃ ch6, standard_local (H := Nat)
        (.consE "other" ⟨"other", "/o".data, none, [.tag .GET], none, none, []⟩ .nil)
        (some "id") ⟨some 9, none, none, []⟩ = .ok ch6
      ∧ ch6.lookup "get" =
          some (.inl ⟨"get", '/' :: ':' :: "id".data, none, [.tag .GET], none, none, []⟩)
      ∧ ch6.lookup "other" =
          some (.inl ⟨"other", "/o".data, none, [.tag .GET], none, none, []⟩) := by
  obtain ⟨ch6, h0, _, _, hget, _, _, _, hframe⟩ :=
    (c8_standard_routes (H := Nat)
      (.consE "other" ⟨"other", "/o".data, none, [.tag .GET], none, none, []⟩ .nil)
      "id" ⟨some 9, none, none, []⟩).2.2 (by decide)
  refine ⟨ch6, h0, hget, ?_⟩
  rw [hframe "other" (by decide) (by decide) (by decide) (by decide) (by decide) (by decide)]
  rfl

/-- C10 (confirmed): on an unstarted node, `register` and `group` with an
already-bound name raise no error and silently replace the existing child
in the children dict; started-mode resolution of that name afterwards yields
exactly the newly registered child, and every other name resolves as
before. -/
theorem c10_silent_replacement {H : Type} (ch : Children H) (a : RegArgs H)
    (g : GroupArgs H) (ms : List MethodVal) (old oldg : Endpoint H ⊕ FTree H)
    (pre : List Char) :
    (ch.lookup a.name = some old → check_valid_methods a.methods = .ok ms →
      ∃ ch', register_local ch a = .ok ch'
        ∧ fabGetattr true ch' a.name = .child (.inl ⟨a.name, a.path, a.handler, ms,
            a.auth_handler, a.headers, a.required_params⟩)
        ∧ ∀ n, n ≠ a.name → ch'.lookup n = ch.lookup n)
    ∧ (ch.lookup g.name = some oldg → g.group_prefix = some pre →
      ∃ ch', group_local ch g = .ok ch'
        ∧ fabGetattr true ch' g.name =
            .child (.inr (.mk ⟨pre, g.auth_handler, g.headers, g.handler⟩ false .nil))
        ∧ ∀ n, n ≠ g.name → ch'.lookup n = ch.lookup n) := by
  constructor
  · intro _hold hv
    refine ⟨ch.setc a.name (.inl ⟨a.name, a.path, a.handler, ms, a.auth_handler, a.headers,
      a.required_params⟩), ?_, ?_, ?_⟩
    · simp [register_local, hv]
    · simp [fabGetattr, getattr_started, setc_lookup_self]
    · intro n hn
      exact setc_lookup_other ch a.name n _ hn
  · intro _hold hp
    refine ⟨ch.setc g.name
      (.inr (.mk ⟨pre, g.auth_handler, g.headers, g.handler⟩ false .nil)), ?_, ?_, ?_⟩
    · simp [group_local, hp]
    · simp [fabGetattr, getattr_started, setc_lookup_self]
    · intro n hn
      exact setc_lookup_other ch g.name n _ hn

/-- Witness for C10: replacing an existing endpoint and an existing group. -/
theorem c10_witness :
    (∃ ch', register_local (H := Nat)
        (.consE "x" ⟨"x", "/old".data, none, [.tag .POST], none, none, []⟩ .nil)
        ⟨"x", "/new".data, [.str "GET"], none, none, none, []⟩ = .ok ch'
      ∧ fabGetattr true ch' "x" =
          .child (.inl ⟨"x", "/new".data, none, [.tag .GET], none, none, []⟩))
    ∧ (∃ ch', group_local (H := Nat)
        (.consN "gg" (.mk ⟨"/old".data, none, none, none⟩ false .nil) .nil)
        ⟨"gg", some "/new".data, none, none, none⟩ = .ok ch'
      ∧ fabGetattr true ch' "gg" =
          .child (.inr (.mk ⟨"/new".data, none, none, none⟩ false .nil))) := by
  constructor
  · obtain ⟨ch', h1, h2, _⟩ := (c10_silent_replacement (H := Nat)
      (.consE "x" ⟨"x", "/old".data, none, [.tag .POST], none, none, []⟩ .nil)
      ⟨"x", "/new".data, [.str "GET"], none, none, none, []⟩
      ⟨"gg", some "/new".data, none, none, none⟩ [.tag .GET]
      (.inl ⟨"x", "/old".data, none, [.tag .POST], none, none, []⟩)
      (.inl ⟨"x", "/old".data, none, [.tag .POST], none, none, []⟩) "/new".data).1 rfl rfl
    exact ⟨ch', h1, h2⟩
  · obtain ⟨ch', h1, h2, _⟩ := (c10_silent_replacement (H := Nat)
      (.consN "gg" (.mk ⟨"/old".data, none, none, none⟩ false .nil) .nil)
      ⟨"x", "/new".data, [.str "GET"], none, none, none, []⟩
      ⟨"gg", some "/new".data, none, none, none⟩ [.tag .GET]
      (.inr (.mk ⟨"/old".data, none, none, none⟩ false .nil))
      (.inr (.mk ⟨"/old".data, none, none, none⟩ false .nil)) "/new".data).2 rfl rfl
    exact ⟨ch', h1, h2⟩

theorem getKey?_isSome_eq_hasKey (kw : Kwargs) (n : String) :
    (getKey? kw n).isSome = hasKey kw n := by
  induction kw with
  | nil => rfl
  | cons p rest ih =>
    by_cases hp : p.1 = n
    · simp [getKey?, hasKey, List.find?_cons, List.any_cons, hp]
    · simp only [getKey?, hasKey, List.find?_cons, List.any_cons, hp, decide_False,
        Bool.false_or]
      simpa [getKey?, hasKey] using ih

theorem hasKey_false_getKey?_none (kw : Kwargs) (n : String) (h : hasKey kw n = false) :
    getKey? kw n = none := by
  have := getKey?_isSome_eq_hasKey kw n
  rw [h] at this
  exact Option.not_isSome_iff_eq_none.mp (by simp [this])

theorem hasKey_true_getKey?_some (kw : Kwargs) (n : String) (h : hasKey kw n = true) :
    ∃ v, getKey? kw n = some v := by
  have := getKey?_isSome_eq_hasKey kw n
  rw [h] at this
  exact Option.isSome_iff_exists.mp this

theorem delKey_hasKey_other (kw : Kwargs) (n m : String) (h : m ≠ n) :
    hasKey (delKey kw n) m = hasKey kw m := by
  induction kw with
  | nil => rfl
  | cons p rest ih =>
    by_cases hp : p.1 = n
    · have hpm : ¬ (p.1 = m) := by
        rw [hp]
        exact fun hnm => h hnm.symm
      simp only [delKey, hasKey, List.filter_cons, List.any_cons] at ih ⊢
      rw [if_neg (by simp [hp])]
      rw [ih]
      simp [hpm]
    · simp only [delKey, hasKey, List.filter_cons, List.any_cons] at ih ⊢
      rw [if_pos (by simp [hp])]
      simp only [List.any_cons]
      rw [ih]

theorem hasKey_of_delKey (kw : Kwargs) (n m : String) (h : hasKey (delKey kw n) m = true) :
    hasKey kw m = true := by
  induction kw with
  | nil => exact h
  | cons p rest ih =>
    by_cases hp : p.1 = n
    · simp only [delKey, List.filter_cons] at h
      rw [if_neg (by simp [hp])] at h
      have hr := ih h
      unfold hasKey at hr ⊢
      simp only [List.any_cons]
      rw [hr, Bool.or_true]
    · simp only [delKey, List.filter_cons] at h
      rw [if_pos (by simp [hp])] at h
      simp only [hasKey, List.any_cons] at h ⊢
      cases hq : decide (p.1 = m) with
      | true => simp
      | false =>
        rw [hq, Bool.false_or] at h
        rw [Bool.false_or]
        exact ih (by simpa [delKey, hasKey] using h)

theorem find?_congr_mem {α : Type} (l : List α) (p q : α → Bool)
    (h : ∀ x ∈ l, p x = q x) : l.find? p = l.find? q := by
  induction l with
  | nil => rfl
  | cons a l ih =>
    rw [List.find?_cons, List.find?_cons, h a (by simp)]
    cases q a
    · exact ih (fun x hx => h x (by simp [hx]))
    · rfl

theorem extractTokens_error_first :
    ∀ (ts : List (List Char)) (kw : Kwargs),
      (ts.map identOf).Nodup →
      ∀ t, ts.find? (fun u => ! hasKey kw (identOf u)) = some t →
      extractTokens ts kw = .error (.paramValidation (String.mk t))
  | [], kw, _, t, hfind => by simp at hfind
  | u :: ts, kw, hnodup, t, hfind => by
    rw [List.find?_cons] at hfind
    by_cases hu : hasKey kw (identOf u) = true
    · rw [show (! hasKey kw (identOf u)) = false by simp [hu]] at hfind
      obtain ⟨v, hv⟩ := hasKey_true_getKey?_some kw (identOf u) hu
      have hcons : (∀ x ∈ ts, ¬ identOf x = identOf u) ∧ (ts.map identOf).Nodup := by
        simpa using hnodup
      have hne : ∀ w ∈ ts, identOf w ≠ identOf u := hcons.1
      have hfind' :
          ts.find? (fun w => ! hasKey (delKey kw (identOf u)) (identOf w)) = some t := by
        rw [find?_congr_mem ts _ (fun w => ! hasKey kw (identOf w))]
        · exact hfind
        · intro w hw
          rw [delKey_hasKey_other kw (identOf u) (identOf w) (hne w hw)]
      have hrec := extractTokens_error_first ts (delKey kw (identOf u))
        hcons.2 t hfind'
      simp only [extractTokens]
      rw [hv, hrec]
    · have hu' : hasKey kw (identOf u) = false := by simpa using hu
      rw [show (! hasKey kw (identOf u)) = true by simp [hu']] at hfind
      have ht : u = t := by simpa using hfind
      subst ht
      simp only [extractTokens]
      rw [hasKey_false_getKey?_none kw (identOf u) hu']

theorem extractTokens_ok_all_present :
    ∀ (ts : List (List Char)) (kw : Kwargs) (ps : List (List Char × Value)) (kw' : Kwargs),
      extractTokens ts kw = .ok (ps, kw') →
      ∀ t ∈ ts, hasKey kw (identOf t) = true
  | [], _, _, _, _, t, ht => by simp at ht
  | u :: ts, kw, ps, kw', hok, t, ht => by
    rcases hgk : getKey? kw (identOf u) with _ | v
    · rw [show extractTokens (u :: ts) kw =
          .error (.paramValidation (String.mk u)) by simp only [extractTokens]; rw [hgk]]
        at hok
      simp at hok
    · rcases List.mem_cons.mp ht with hteq | htmem
      · subst hteq
        have : (getKey? kw (identOf t)).isSome = true := by simp [hgk]
        rw [getKey?_isSome_eq_hasKey] at this
        exact this
      · rcases hrec : extractTokens ts (delKey kw (identOf u)) with e | pr
        · rw [show extractTokens (u :: ts) kw = .error e by
            simp only [extractTokens]; rw [hgk, hrec]] at hok
          simp at hok
        · have := extractTokens_ok_all_present ts (delKey kw (identOf u))
            pr.1 pr.2 (by rw [hrec]) t htmem
          exact hasKey_of_delKey kw (identOf u) (identOf t) this

theorem findTokens_shape :
    ∀ (l : List Char), ∀ t ∈ findTokens l,
      ∃ w, t = ':' :: w ∧ w ≠ [] ∧ ∀ c ∈ w, isIdentChar c = true
  | l, t, ht => by
    match l with
    | [] => simp [findTokens_nil] at ht
    | c :: rest =>
      rw [findTokens_cons] at ht
      by_cases hc : c = ':'
      · rw [if_pos hc] at ht
        cases htw : rest.takeWhile isIdentChar with
        | nil =>
          rw [htw] at ht
          exact findTokens_shape rest t ht
        | cons a as =>
          rw [htw] at ht
          rcases List.mem_cons.mp ht with hteq | htmem
          · refine ⟨a :: as, hteq, by simp, ?_⟩
            intro d hd
            exact List.mem_takeWhile_imp (htw ▸ hd)
          · exact findTokens_shape (rest.dropWhile isIdentChar) t htmem
      · rw [if_neg hc] at ht
        exact findTokens_shape rest t ht
termination_by l => l.length
decreasing_by
  · simp
  · simp only [List.length_cons]
    have := length_dropWhile_ident_le rest
    omega
  · simp

theorem findTokens_idents_nodup (l : List Char) (h : (findTokens l).Nodup) :
    ((findTokens l).map identOf).Nodup := by
  refine List.Nodup.map_on ?_ h
  intro t ht u hu heq
  obtain ⟨w1, ht1, _, _⟩ := findTokens_shape l t ht
  obtain ⟨w2, hu1, _, _⟩ := findTokens_shape l u hu
  subst ht1
  subst hu1
  have : w1 = w2 := by
    have := congrArg String.data heq
    simpa [identOf] using this
  rw [this]

/-- C2 counterexample: with the template `/:a/:a/:b` and only `a` bound, the
first token whose identifier is absent from the call's keyword arguments is
`:b`, but the dispatch raises `ParamValidationError` carrying `:a` — the
second `:a` occurrence fails because the first one deleted `a` from the
arguments. -/
theorem c2_counterexample :
    make_request (H := Nat) ⟨"e", "/:a/:a/:b".data, none, [.tag .GET], none, none, []⟩ []
      (.tag .GET) [("a", .vnat 1)] = .error (.paramValidation ":a")
    ∧ (findTokens "/:a/:a/:b".data).find?
        (fun t => ! hasKey [("a", Value.vnat 1)] (identOf t)) = some ":b".data
    ∧ (":a" : String) ≠ ":b" := by
  refine ⟨by decide, by decide, by decide⟩

/-- C2 (corrected): dispatch failures occur in pipeline order, all strictly
before any transport call (an `.error` result never reaches the `Request`
boundary): an argument method matching none of the endpoint's declared
methods raises `NotImplementedError`; then the first `requiredParams` entry
(in declaration order) missing from the keyword arguments raises
`ParamValidationError` carrying that name; then the path tokens are checked
in template order against an argument set from which earlier tokens'
identifiers have been removed — for templates with pairwise-distinct tokens
this reports exactly the first token whose identifier is absent from the
call's arguments, carrying the colon-prefixed token.  Conversely a dispatch
that reaches the transport passed all three checks. -/
theorem c2_failure_order {H : Type} (e : Endpoint H) (chain : List (NodeCfg H))
    (m : MethodVal) (kw : Kwargs) :
    (e.methods ≠ [] → (∀ t ∈ e.methods, methodValMatches t (upperMethodVal m) = false) →
      make_request e chain m kw = .error (.notImplemented
        (methodFmtPy (upperMethodVal m) ++ " is not a valid method for the " ++
          String.mk e.path ++ " route")))
    ∧ (check_method_ok e.methods m = true →
      ∀ p, e.required_params.find? (fun q => ! hasKey kw q) = some p →
      make_request e chain m kw = .error (.paramValidation p))
    ∧ (check_method_ok e.methods m = true →
      e.required_params.find? (fun q => ! hasKey kw q) = none →
      (findTokens e.path).Nodup →
      ∀ t, (findTokens e.path).find? (fun u => ! hasKey kw (identOf u)) = some t →
      make_request e chain m kw = .error (.paramValidation (String.mk t)))
    ∧ (∀ req, make_request e chain m kw = .ok req →
      check_method_ok e.methods m = true
      ∧ e.required_params.find? (fun q => ! hasKey kw q) = none
      ∧ ∀ t ∈ findTokens e.path, hasKey kw (identOf t) = true) := by
  refine ⟨?_, ?_, ?_, ?_⟩
  · intro hne hall
    have hok : check_method_ok e.methods m = false := by
      unfold check_method_ok
      rw [Bool.or_eq_false_iff]
      constructor
      · cases hms : e.methods with
        | nil => exact absurd hms hne
        | cons a l => rfl
      · exact List.any_eq_false.mpr (fun x hx => by simp [hall x hx])
    simp [make_request, hok]
  · intro hok p hfind
    simp only [make_request]
    rw [if_neg (by simp [hok])]
    rw [hfind]
  · intro hok hreq hnodup t hfind
    simp only [make_request]
    rw [if_neg (by simp [hok])]
    rw [hreq]
    rw [extractTokens_error_first (findTokens e.path) kw
      (findTokens_idents_nodup e.path hnodup) t hfind]
  · intro req hreq
    rcases hcm : check_method_ok e.methods m with _ | _
    · rw [show make_request e chain m kw = .error (.notImplemented
          (methodFmtPy (upperMethodVal m) ++ " is not a valid method for the " ++
            String.mk e.path ++ " route")) by simp [make_request, hcm]] at hreq
      simp at hreq
    · refine ⟨rfl, ?_⟩
      rcases hf : e.required_params.find? (fun q => ! hasKey kw q) with _ | p
      · refine ⟨rfl, ?_⟩
        rcases hex : extractTokens (findTokens e.path) kw with err | pr
        · rw [show make_request e chain m kw = .error err by
            simp only [make_request]
            rw [if_neg (by simp [hcm])]
            rw [hf, hex]] at hreq
          simp at hreq
        · exact extractTokens_ok_all_present (findTokens e.path) kw pr.1 pr.2
            (by rw [hex]) 
      · rw [show make_request e chain m kw = .error (.paramValidation p) by
          simp only [make_request]
          rw [if_neg (by simp [hcm])]
          rw [hf]] at hreq
        simp at hreq

/-- Witness for C2: the three failure stages and a passing dispatch, on
concrete endpoints. -/
theorem c2_witness :
    make_request (H := Nat) ⟨"e", "/todos".data, none, [.tag .GET], none, none, []⟩ []
      (.str "POST") [] = .error (.notImplemented
        ("POST" ++ " is not a valid method for the " ++ String.mk "/todos".data ++ " route"))
    ∧ make_request (H := Nat) ⟨"e", "/todos".data, none, [.tag .POST], none, none,
        ["value", "other"]⟩ [] (.tag .POST) [("value", .vstr "a")] =
      .error (.paramValidation "other")
    ∧ make_request (H := Nat) ⟨"e", "/todos/:id".data, none, [.tag .GET], none, none, []⟩ []
      (.tag .GET) [] = .error (.paramValidation ":id")
    ∧ (check_method_ok [MethodVal.tag .GET] (.tag .GET) = true
      ∧ List.find? (fun q => ! hasKey [("id", Value.vnat 3)] q) [] = none
      ∧ ∀ t ∈ findTokens "/todos/:id".data, hasKey [("id", Value.vnat 3)] (identOf t) = true) := by
  refine ⟨?_, ?_, ?_, ?_⟩
  · exact (c2_failure_order (H := Nat) ⟨"e", "/todos".data, none, [.tag .GET], none, none, []⟩
      [] (.str "POST") []).1 (by decide) (by decide)
  · exact (c2_failure_order (H := Nat) ⟨"e", "/todos".data, none, [.tag .POST], none, none,
      ["value", "other"]⟩ [] (.tag .POST) [("value", .vstr "a")]).2.1 (by decide) "other"
      (by decide)
  · exact (c2_failure_order (H := Nat) ⟨"e", "/todos/:id".data, none, [.tag .GET], none, none,
      []⟩ [] (.tag .GET) []).2.2.1 (by decide) (by decide) (by decide) ":id".data (by decide)
  · exact (c2_failure_order (H := Nat) ⟨"e", "/todos/:id".data, none, [.tag .GET], none, none,
      []⟩ [] (.tag .GET) [("id", .vnat 3)]).2.2.2
      ⟨"GET", "/todos/3".data, [], none, none, none, none⟩ (by decide)

mutual
theorem nodeUpdate_fst_of_anc {H : Type}
    (f : Bool → NodeCfg H → Children H → (NodeCfg H × Children H) × OpOut H)
    (hF : ∀ cfg ch, (f true cfg ch).1 = (cfg, ch)) :
    ∀ (t : FTree H) (p : List String), (nodeUpdate f true t p).1 = t
  | .mk cfg st ch, [] => by
    simp only [nodeUpdate, Bool.true_or]
    rw [show f true cfg ch = ((f true cfg ch).1, (f true cfg ch).2) from rfl, hF cfg ch]
  | .mk cfg st ch, n :: rest => by
    simp only [nodeUpdate, Bool.true_or]
    rw [show childUpdate f true ch n rest =
      ((childUpdate f true ch n rest).1, (childUpdate f true ch n rest).2) from rfl,
      childUpdate_fst_of_anc f hF ch n rest]

theorem childUpdate_fst_of_anc {H : Type}
    (f : Bool → NodeCfg H → Children H → (NodeCfg H × Children H) × OpOut H)
    (hF : ∀ cfg ch, (f true cfg ch).1 = (cfg, ch)) :
    ∀ (ch : Children H) (n : String) (rest : List String),
      (childUpdate f true ch n rest).1 = ch
  | .nil, n, rest => rfl
  | .consE m e r, n, rest => by
    by_cases hm : m = n
    · simp [childUpdate, hm]
    · simp only [childUpdate, if_neg hm]
      rw [show childUpdate f true r n rest =
        ((childUpdate f true r n rest).1, (childUpdate f true r n rest).2) from rfl,
        childUpdate_fst_of_anc f hF r n rest]
  | .consN m t r, n, rest => by
    by_cases hm : m = n
    · simp only [childUpdate, if_pos hm]
      rw [show nodeUpdate f true t rest =
        ((nodeUpdate f true t rest).1, (nodeUpdate f true t rest).2) from rfl,
        nodeUpdate_fst_of_anc f hF t rest]
    · simp only [childUpdate, if_neg hm]
      rw [show childUpdate f true r n rest =
        ((childUpdate f true r n rest).1, (childUpdate f true r n rest).2) from rfl,
        childUpdate_fst_of_anc f hF r n rest]
end

mutual
theorem nodeUpdate_snd_of_anc {H : Type}
    (f : Bool → NodeCfg H → Children H → (NodeCfg H × Children H) × OpOut H) :
    ∀ (t : FTree H) (p : List String) (sub : FTree H), t.nodeAt p = some sub →
      (nodeUpdate f true t p).2 = (f true sub.cfg sub.children).2
  | .mk cfg st ch, [], sub, h => by
    have hsub : FTree.mk cfg st ch = sub := by simpa [FTree.nodeAt] using h
    subst hsub
    simp [nodeUpdate, Bool.true_or, FTree.cfg, FTree.children]
  | .mk cfg st ch, n :: rest, sub, h => by
    simp only [FTree.nodeAt] at h
    simp only [nodeUpdate, Bool.true_or]
    exact childUpdate_snd_of_anc f ch n rest sub h

theorem childUpdate_snd_of_anc {H : Type}
    (f : Bool → NodeCfg H → Children H → (NodeCfg H × Children H) × OpOut H) :
    ∀ (ch : Children H) (n : String) (rest : List String) (sub : FTree H),
      Children.nodeAtAux ch n rest = some sub →
      (childUpdate f true ch n rest).2 = (f true sub.cfg sub.children).2
  | .nil, n, rest, sub, h => by simp [Children.nodeAtAux] at h
  | .consE m e r, n, rest, sub, h => by
    by_cases hm : m = n
    · rw [Children.nodeAtAux, if_pos hm] at h
      simp at h
    · rw [Children.nodeAtAux, if_neg hm] at h
      simp only [childUpdate, if_neg hm]
      exact childUpdate_snd_of_anc f r n rest sub h
  | .consN m t r, n, rest, sub, h => by
    by_cases hm : m = n
    · rw [Children.nodeAtAux, if_pos hm] at h
      simp only [childUpdate, if_pos hm]
      exact nodeUpdate_snd_of_anc f t rest sub h
    · rw [Children.nodeAtAux, if_neg hm] at h
      simp only [childUpdate, if_neg hm]
      exact childUpdate_snd_of_anc f r n rest sub h
end

theorem isStartedAt_of_root {H : Type} (t : FTree H) (p : List String)
    (h : t.started = true) : t.isStartedAt p = true := by
  cases t with
  | mk cfg st ch =>
    cases p with
    | nil => exact h
    | cons n rest =>
      simp only [FTree.started] at h
      simp [FTree.isStartedAt, h]

mutual
theorem isStartedAt_false_of_allOff {H : Type} :
    ∀ (t : FTree H) (p : List String), t.allOff = true → t.isStartedAt p = false
  | .mk cfg st ch, p, h => by
    have hoff : st = false ∧ ch.allOff = true := by
      simpa [FTree.allOff] using h
    cases p with
    | nil => exact hoff.1
    | cons n rest =>
      simp [FTree.isStartedAt, hoff.1,
        startedAux_false_of_allOff ch n rest hoff.2]

theorem startedAux_false_of_allOff {H : Type} :
    ∀ (ch : Children H) (n : String) (rest : List String), ch.allOff = true →
      Children.startedAux ch n rest = false
  | .nil, n, rest, _ => rfl
  | .consE m e r, n, rest, h => by
    by_cases hm : m = n
    · simp [Children.startedAux, hm]
    · simp only [Children.startedAux, if_neg hm]
      exact startedAux_false_of_allOff r n rest (by simpa [Children.allOff] using h)
  | .consN m t r, n, rest, h => by
    have hh : t.allOff = true ∧ r.allOff = true := by
      simpa [Children.allOff] using h
    by_cases hm : m = n
    · simp only [Children.startedAux, if_pos hm]
      exact isStartedAt_false_of_allOff t rest hh.1
    · simp only [Children.startedAux, if_neg hm]
      exact startedAux_false_of_allOff r n rest hh.2
end

theorem isStartedAt_false_of_unstarted_clean {H : Type} (t : FTree H) (p : List String)
    (hst : t.started = false) (hin : t.innerOff = true) : t.isStartedAt p = false := by
  cases t with
  | mk cfg st ch =>
    simp only [FTree.started] at hst
    simp only [FTree.innerOff] at hin
    cases p with
    | nil => exact hst
    | cons n rest =>
      simp [FTree.isStartedAt, hst, startedAux_false_of_allOff ch n rest hin]

theorem nodeUpdate_fst_root {H : Type}
    (f : Bool → NodeCfg H → Children H → (NodeCfg H × Children H) × OpOut H)
    (hF : ∀ cfg ch, (f true cfg ch).1 = (cfg, ch)) (t : FTree H) (p : List String)
    (hst : t.started = true) : (nodeUpdate f false t p).1 = t := by
  cases t with
  | mk cfg st ch =>
    simp only [FTree.started] at hst
    subst hst
    cases p with
    | nil =>
      simp only [nodeUpdate, Bool.or_true]
      rw [show f true cfg ch = ((f true cfg ch).1, (f true cfg ch).2) from rfl, hF cfg ch]
    | cons n rest =>
      simp only [nodeUpdate, Bool.or_true]
      rw [show childUpdate f true ch n rest =
        ((childUpdate f true ch n rest).1, (childUpdate f true ch n rest).2) from rfl,
        childUpdate_fst_of_anc f hF ch n rest]

theorem nodeUpdate_snd_root {H : Type}
    (f : Bool → NodeCfg H → Children H → (NodeCfg H × Children H) × OpOut H)
    (t : FTree H) (p : List String) (sub : FTree H) (hst : t.started = true)
    (hsub : t.nodeAt p = some sub) :
    (nodeUpdate f false t p).2 = (f true sub.cfg sub.children).2 := by
  cases t with
  | mk cfg st ch =>
    simp only [FTree.started] at hst
    subst hst
    cases p with
    | nil =>
      have hs : FTree.mk cfg true ch = sub := by simpa [FTree.nodeAt] using hsub
      subst hs
      simp [nodeUpdate, FTree.cfg, FTree.children]
    | cons n rest =>
      simp only [FTree.nodeAt] at hsub
      simp only [nodeUpdate, Bool.or_true]
      exact childUpdate_snd_of_anc f ch n rest sub hsub

/-- C9 counterexample: calling `register` on a started client that has no
child endpoint named `register` leaves the tree unchanged and raises
`FabricatorNotImplementedError` (the started-mode resolution failure), not
`UsageError` as the claim states. -/
theorem c9_counterexample :
    registerAt (.mk ⟨"/api".data, none, none, none⟩ true .nil : FTree Nat) []
      ⟨"x", "/x".data, [.str "GET"], none, none, none, []⟩ =
      (.mk ⟨"/api".data, none, none, none⟩ true .nil,
        .raised (.notImplemented "There is no method with the name \"register\"")) := rfl

/-- C9 (corrected): calling `register` on a node of a started tree registers
nothing — the tree is unchanged — and the call is re-dispatched through
started-mode resolution of the name `register` on that node: with no child
of that name it raises `NotImplementedError`; with one, that child is
resolved and invoked. -/
theorem c9_register_after_start {H : Type} (t : FTree H) (p : List String)
    (a : RegArgs H) (sub : FTree H) (hst : t.started = true)
    (hsub : t.nodeAt p = some sub) :
    (registerAt t p a).1 = t
    ∧ (registerAt t p a).2 = opDelegate sub.children "register"
    ∧ (sub.children.lookup "register" = none →
        (registerAt t p a).2 =
          .raised (.notImplemented "There is no method with the name \"register\""))
    ∧ (∀ c, sub.children.lookup "register" = some c →
        (registerAt t p a).2 = .invoked c) := by
  have h1 : (registerAt t p a).1 = t :=
    nodeUpdate_fst_root (registerF a) (fun cfg ch => rfl) t p hst
  have h2 : (registerAt t p a).2 = opDelegate sub.children "register" :=
    nodeUpdate_snd_root (registerF a) t p sub hst hsub
  refine ⟨h1, h2, ?_, ?_⟩
  · intro hnone
    rw [h2]
    simp [opDelegate, hnone]
  · intro c hc
    rw [h2]
    simp [opDelegate, hc]

/-- Witness for C9: a started client with a child group and an endpoint named
`register`. -/
theorem c9_witness :
    (registerAt (.mk ⟨"/api".data, none, none, none⟩ true
        (.consE "register" ⟨"register", "/r".data, none, [.tag .GET], none, none, []⟩ .nil) :
        FTree Nat) []
      ⟨"x", "/x".data, [.str "GET"], none, none, none, []⟩).1 =
      .mk ⟨"/api".data, none, none, none⟩ true
        (.consE "register" ⟨"register", "/r".data, none, [.tag .GET], none, none, []⟩ .nil)
    ∧ (registerAt (.mk ⟨"/api".data, none, none, none⟩ true
        (.consE "register" ⟨"register", "/r".data, none, [.tag .GET], none, none, []⟩ .nil) :
        FTree Nat) []
      ⟨"x", "/x".data, [.str "GET"], none, none, none, []⟩).2 =
      .invoked (.inl ⟨"register", "/r".data, none, [.tag .GET], none, none, []⟩) := by
  obtain ⟨h1, _, _, h4⟩ := c9_register_after_start
    (.mk ⟨"/api".data, none, none, none⟩ true
      (.consE "register" ⟨"register", "/r".data, none, [.tag .GET], none, none, []⟩ .nil) :
      FTree Nat) []
    ⟨"x", "/x".data, [.str "GET"], none, none, none, []⟩
    (.mk ⟨"/api".data, none, none, none⟩ true
      (.consE "register" ⟨"register", "/r".data, none, [.tag .GET], none, none, []⟩ .nil))
    rfl rfl
  exact ⟨h1, h4 _ rfl⟩

/-- C6 (confirmed): `start()` called on any node sets the flag at the root
(found by walking parent links), after which the started-state query is true
at every node of the tree; and once the root flag is set, every public
builder operation — `register`, `group`, `start`, `add_header`,
`set_handler`, `set_auth_handler`, `standard` — leaves the whole tree (its
flag and every children map) unchanged, so the flag never reverts and no
children can be added or changed anywhere.  (`innerOff` restricts to the
reachable states: only the root's flag is ever set by the code.) -/
theorem c6_start_is_global_and_freezing {H : Type} (t : FTree H) (p q : List String)
    (a : RegArgs H) (g : GroupArgs H) (kw : List (String × String)) (h : Option H)
    (wp : Option String) (ex : StdExtras H) :
    (t.innerOff = true → ((startAt t p).1.isStartedAt q = true
      ∧ (startAt t p).1.started = true))
    ∧ (t.started = true →
        (registerAt t p a).1 = t ∧ (groupAt t p g).1 = t ∧ (startAt t p).1 = t
        ∧ (addHeaderAt t p kw).1 = t ∧ (setHandlerAt t p h).1 = t
        ∧ (setAuthHandlerAt t p h).1 = t ∧ (standardAt t p wp ex).1 = t) := by
  constructor
  · intro hin
    rcases hst : t.started with _ | _
    · have hfalse := isStartedAt_false_of_unstarted_clean t p hst hin
      have hset : (startAt t p).1 = t.setRootStarted := by
        simp [startAt, hfalse]
      rw [hset]
      cases t with
      | mk cfg st ch =>
        refine ⟨isStartedAt_of_root _ q rfl, rfl⟩
    · have htrue := isStartedAt_of_root t p hst
      have hkeep : (startAt t p).1 = t := by
        simp [startAt, htrue]
      rw [hkeep]
      exact ⟨isStartedAt_of_root t q hst, hst⟩
  · intro hst
    have htrue := isStartedAt_of_root t p hst
    refine ⟨nodeUpdate_fst_root (registerF a) (fun cfg ch => rfl) t p hst,
      nodeUpdate_fst_root (groupF g) (fun cfg ch => rfl) t p hst,
      by simp [startAt, htrue],
      nodeUpdate_fst_root (addHeaderF kw) (fun cfg ch => rfl) t p hst,
      nodeUpdate_fst_root (setHandlerF h) (fun cfg ch => rfl) t p hst,
      nodeUpdate_fst_root (setAuthHandlerF h) (fun cfg ch => rfl) t p hst,
      nodeUpdate_fst_root (standardF wp ex) (fun cfg ch => rfl) t p hst⟩

/-- Witness for C6: starting a two-level unstarted client from its subgroup
makes every node report started; on a started client every operation leaves
the tree untouched. -/
theorem c6_witness :
    ((startAt (.mk ⟨"/api".data, none, none, none⟩ false
        (.consN "v1" (.mk ⟨"/v1".data, none, none, none⟩ false .nil) .nil) : FTree Nat)
      ["v1"]).1.isStartedAt ["v1"] = true
    ∧ (startAt (.mk ⟨"/api".data, none, none, none⟩ false
        (.consN "v1" (.mk ⟨"/v1".data, none, none, none⟩ false .nil) .nil) : FTree Nat)
      ["v1"]).1.started = true)
    ∧ (registerAt (.mk ⟨"/api".data, none, none, none⟩ true .nil : FTree Nat) []
        ⟨"x", "/x".data, [.str "GET"], none, none, none, []⟩).1 =
      .mk ⟨"/api".data, none, none, none⟩ true .nil := by
  constructor
  · exact (c6_start_is_global_and_freezing
      (.mk ⟨"/api".data, none, none, none⟩ false
        (.consN "v1" (.mk ⟨"/v1".data, none, none, none⟩ false .nil) .nil) : FTree Nat)
      ["v1"] ["v1"] ⟨"x", "/x".data, [.str "GET"], none, none, none, []⟩
      ⟨"gg", some "/g".data, none, none, none⟩ [] none none
      ⟨none, none, none, []⟩).1 rfl
  · exact ((c6_start_is_global_and_freezing
      (.mk ⟨"/api".data, none, none, none⟩ true .nil : FTree Nat)
      [] [] ⟨"x", "/x".data, [.str "GET"], none, none, none, []⟩
      ⟨"gg", some "/g".data, none, none, none⟩ [] none none
      ⟨none, none, none, []⟩).2 rfl).1

theorem specSubst_of_noColon (vals : List (List Char × List Char)) :
    ∀ l : List Char, (':' : Char) ∉ l → specSubst vals l = l
  | [], _ => rfl
  | c :: rest, h => by
    rw [specSubst_cons]
    rw [if_neg (fun hc => h (by rw [hc]; exact List.mem_cons_self _ _))]
    rw [specSubst_of_noColon vals rest (fun hr => h (List.mem_cons_of_mem c hr))]

theorem noColon_of_clean_noTokens :
    ∀ l : List Char, colonsClean l = true → findTokens l = [] → (':' : Char) ∉ l
  | [], _, _ => by simp
  | c :: rest, hc, hf => by
    have hcr : (if c = ':' then !(rest.takeWhile isIdentChar).isEmpty else true) = true
        ∧ colonsClean rest = true := by
      simpa [colonsClean] using hc
    rw [findTokens_cons] at hf
    by_cases hcc : c = ':'
    · rw [if_pos hcc] at hf
      have hba := hcr.1
      rw [if_pos hcc] at hba
      cases htw : rest.takeWhile isIdentChar with
      | nil =>
        rw [htw] at hba
        simp at hba
      | cons a as =>
        rw [htw] at hf
        exact absurd hf (by simp)
    · rw [if_neg hcc] at hf
      have hrest := noColon_of_clean_noTokens rest hcr.2 hf
      intro hmem
      rcases List.mem_cons.mp hmem with heq | hmem'
      · exact hcc heq.symm
      · exact hrest hmem'

theorem findTokens_append_noColon :
    ∀ (x l : List Char), (':' : Char) ∉ x → findTokens (x ++ l) = findTokens l
  | [], _, _ => rfl
  | c :: x, l, h => by
    rw [List.cons_append, findTokens_cons]
    rw [if_neg (fun hc => h (by rw [hc]; exact List.mem_cons_self _ _))]
    exact findTokens_append_noColon x l (fun hr => h (List.mem_cons_of_mem c hr))

theorem colonsClean_append_noColon :
    ∀ (x l : List Char), (':' : Char) ∉ x → colonsClean (x ++ l) = colonsClean l
  | [], _, _ => rfl
  | c :: x, l, h => by
    rw [List.cons_append]
    show ((if c = ':' then !((x ++ l).takeWhile isIdentChar).isEmpty else true)
      && colonsClean (x ++ l)) = colonsClean l
    rw [if_neg (fun hc => h (by rw [hc]; exact List.mem_cons_self _ _))]
    rw [colonsClean_append_noColon x l (fun hr => h (List.mem_cons_of_mem c hr))]
    rw [Bool.true_and]

theorem colonsClean_suffix :
    ∀ (x l : List Char), colonsClean (x ++ l) = true → colonsClean l = true
  | [], _, h => h
  | c :: x, l, h => by
    have hh : ((if c = ':' then !((x ++ l).takeWhile isIdentChar).isEmpty else true)
        && colonsClean (x ++ l)) = true := h
    exact colonsClean_suffix x l ((Bool.and_eq_true _ _).mp hh).2

theorem takeWhile_append_of_all (p : Char → Bool) :
    ∀ (w l : List Char), (∀ c ∈ w, p c = true) → (w ++ l).takeWhile p = w ++ l.takeWhile p
  | [], l, _ => rfl
  | c :: w, l, h => by
    rw [List.cons_append, List.takeWhile_cons_of_pos (h c (by simp))]
    rw [takeWhile_append_of_all p w l (fun d hd => h d (by simp [hd]))]
    rfl

theorem dropWhile_append_of_all (p : Char → Bool) :
    ∀ (w l : List Char), (∀ c ∈ w, p c = true) → (w ++ l).dropWhile p = l.dropWhile p
  | [], l, _ => rfl
  | c :: w, l, h => by
    rw [List.cons_append, List.dropWhile_cons_of_pos (h c (by simp))]
    exact dropWhile_append_of_all p w l (fun d hd => h d (by simp [hd]))

theorem dropWhile_eq_self_of_takeWhile_nil (p : Char → Bool) (l : List Char)
    (h : l.takeWhile p = []) : l.dropWhile p = l := by
  cases l with
  | nil => rfl
  | cons c rest =>
    rcases hp : p c with _ | _
    · rw [List.dropWhile_cons_of_neg (by simp [hp])]
    · rw [List.takeWhile_cons_of_pos hp] at h
      exact absurd h (by simp)

theorem takeWhile_dropWhile_nil (p : Char → Bool) :
    ∀ l : List Char, (l.dropWhile p).takeWhile p = []
  | [] => rfl
  | c :: rest => by
    rcases hp : p c with _ | _
    · rw [List.dropWhile_cons_of_neg (by simp [hp])]
      rw [List.takeWhile_cons_of_neg (by simp [hp])]
    · rw [List.dropWhile_cons_of_pos hp]
      exact takeWhile_dropWhile_nil p rest

theorem specSubst_append_noColon (vals : List (List Char × List Char)) :
    ∀ (x l : List Char), (':' : Char) ∉ x →
      specSubst vals (x ++ l) = x ++ specSubst vals l
  | [], _, _ => rfl
  | c :: x, l, h => by
    rw [List.cons_append, specSubst_cons]
    rw [if_neg (fun hc => h (by rw [hc]; exact List.mem_cons_self _ _))]
    rw [specSubst_append_noColon vals x l (fun hr => h (List.mem_cons_of_mem c hr))]
    rfl

theorem specSubst_congr (vals1 vals2 : List (List Char × List Char)) :
    ∀ l : List Char,
      (∀ tok ∈ findTokens l, vals1.find? (fun p => p.1 = tok) =
        vals2.find? (fun p => p.1 = tok)) →
      specSubst vals1 l = specSubst vals2 l
  | [], _ => rfl
  | c :: rest, h => by
    rw [specSubst_cons, specSubst_cons]
    by_cases hc : c = ':'
    · rw [if_pos hc, if_pos hc]
      cases htw : rest.takeWhile isIdentChar with
      | nil =>
        have hrec := specSubst_congr vals1 vals2 rest (by
          intro tok htok
          apply h tok
          rw [findTokens_cons, if_pos hc, htw]
          exact htok)
        rw [hrec]
      | cons a as =>
        have htok : (':' :: a :: as) ∈ findTokens (c :: rest) := by
          rw [findTokens_cons, if_pos hc, htw]
          exact List.mem_cons_self _ _
        have hhead := h (':' :: a :: as) htok
        have hrec := specSubst_congr vals1 vals2 (rest.dropWhile isIdentChar) (by
          intro tok htokmem
          apply h tok
          rw [findTokens_cons, if_pos hc, htw]
          exact List.mem_cons_of_mem _ htokmem)
        rw [hhead, hrec]
    · rw [if_neg hc, if_neg hc]
      have hrec := specSubst_congr vals1 vals2 rest (by
        intro tok htok
        apply h tok
        rw [findTokens_cons, if_neg hc]
        exact htok)
      rw [hrec]
termination_by l => l.length
decreasing_by
  · simp
  · simp only [List.length_cons]
    have := length_dropWhile_ident_le rest
    omega
  · simp

theorem takeWhile_append_stop (p : Char → Bool) (c0 : Char) (z : List Char)
    (hc0 : p c0 = false) :
    ∀ x : List Char, (x ++ c0 :: z).takeWhile p = x.takeWhile p
  | [] => by
    rw [List.nil_append, List.takeWhile_cons_of_neg (by simp [hc0])]
    rfl
  | c :: x => by
    rcases hp : p c with _ | _
    · rw [List.cons_append, List.takeWhile_cons_of_neg (by simp [hp]),
        List.takeWhile_cons_of_neg (by simp [hp])]
    · rw [List.cons_append, List.takeWhile_cons_of_pos hp, List.takeWhile_cons_of_pos hp,
        takeWhile_append_stop p c0 z hc0 x]

theorem dropWhile_append_stop (p : Char → Bool) (c0 : Char) (z : List Char)
    (hc0 : p c0 = false) :
    ∀ x : List Char, (x ++ c0 :: z).dropWhile p = x.dropWhile p ++ c0 :: z
  | [] => by
    rw [List.nil_append, List.dropWhile_cons_of_neg (by simp [hc0])]
    rfl
  | c :: x => by
    rcases hp : p c with _ | _
    · rw [List.cons_append, List.dropWhile_cons_of_neg (by simp [hp]),
        List.dropWhile_cons_of_neg (by simp [hp])]
      rfl
    · rw [List.cons_append, List.dropWhile_cons_of_pos hp, List.dropWhile_cons_of_pos hp,
        dropWhile_append_stop p c0 z hc0 x]

theorem findTokens_decomp :
    ∀ (l : List Char), colonsClean l = true →
      ∀ (t : List Char) (ts : List (List Char)), findTokens l = t :: ts →
      ∃ pre w suf, t = ':' :: w ∧ w ≠ [] ∧ (∀ c ∈ w, isIdentChar c = true)
        ∧ l = pre ++ t ++ suf ∧ (':' : Char) ∉ pre
        ∧ suf.takeWhile isIdentChar = [] ∧ findTokens suf = ts
  | [], _, t, ts, h => by
    rw [findTokens_nil] at h
    exact absurd h (by simp)
  | c :: rest, hcl, t, ts, h => by
    have hh : ((if c = ':' then !(rest.takeWhile isIdentChar).isEmpty else true)
        && colonsClean rest) = true := hcl
    have hcr := (Bool.and_eq_true _ _).mp hh
    rw [findTokens_cons] at h
    by_cases hcc : c = ':'
    · rw [if_pos hcc] at h
      have hba := hcr.1
      rw [if_pos hcc] at hba
      cases htw : rest.takeWhile isIdentChar with
      | nil =>
        rw [htw] at hba
        simp at hba
      | cons a as =>
        rw [htw] at h
        have hts : t = ':' :: a :: as ∧ ts = findTokens (rest.dropWhile isIdentChar) := by
          have := List.cons.injEq _ _ _ _ ▸ h
          exact ⟨(List.cons.inj h).1.symm, (List.cons.inj h).2.symm⟩
        refine ⟨[], a :: as, rest.dropWhile isIdentChar, hts.1, by simp, ?_, ?_, by simp,
          takeWhile_dropWhile_nil isIdentChar rest, hts.2.symm⟩
        · intro d hd
          exact List.mem_takeWhile_imp (htw ▸ hd)
        · rw [List.nil_append, hts.1, hcc]
          show ':' :: rest = ':' :: ((a :: as) ++ rest.dropWhile isIdentChar)
          rw [← htw, List.takeWhile_append_dropWhile]
    · rw [if_neg hcc] at h
      obtain ⟨pre, w, suf, h1, h2, h3, h4, h5, h6, h7⟩ :=
        findTokens_decomp rest hcr.2 t ts h
      refine ⟨c :: pre, w, suf, h1, h2, h3, by rw [h4]; simp, ?_, h6, h7⟩
      intro hmem
      rcases List.mem_cons.mp hmem with heq | hmem'
      · exact hcc heq.symm
      · exact h5 hmem'

theorem replaceAll_decomp (w rep : List Char) :
    ∀ (pre suf : List Char), (':' : Char) ∉ pre →
      replaceAll (':' :: w) rep (pre ++ (':' :: w) ++ suf) =
        pre ++ rep ++ replaceAll (':' :: w) rep suf
  | [], suf, _ => by
    show replaceAll (':' :: w) rep (':' :: (w ++ suf)) = rep ++ replaceAll (':' :: w) rep suf
    rw [replaceAll_cons]
    rw [if_pos (by
      show (':' :: w).isPrefixOf (':' :: w ++ suf) = true
      exact List.isPrefixOf_iff_prefix.mpr ⟨suf, rfl⟩)]
    have hdrop : (w ++ suf).drop ((':' :: w).length - 1) = suf := by
      simp [List.drop_left]
    rw [hdrop]
  | c :: pre, suf, h => by
    have hcc : ¬ c = ':' := fun hc => h (by rw [hc]; exact List.mem_cons_self _ _)
    show replaceAll (':' :: w) rep (c :: (pre ++ (':' :: w) ++ suf)) = _
    rw [replaceAll_cons]
    rw [if_neg (by
      intro hp
      rcases List.isPrefixOf_iff_prefix.mp hp with ⟨u, hu⟩
      have : ':' = c := (List.cons.inj hu).1
      exact hcc this.symm)]
    rw [replaceAll_decomp w rep pre suf (fun hm => h (List.mem_cons_of_mem c hm))]
    rfl

theorem replaceAll_of_no_occur (pat rep : List Char) :
    ∀ l : List Char, (∀ a b, l ≠ a ++ pat ++ b) → replaceAll pat rep l = l
  | [], _ => rfl
  | c :: rest, h => by
    rw [replaceAll_cons]
    rw [if_neg (by
      intro hp
      rcases List.isPrefixOf_iff_prefix.mp hp with ⟨u, hu⟩
      exact h [] u (by rw [List.nil_append, hu]))]
    rw [replaceAll_of_no_occur pat rep rest
      (fun a b hab => h (c :: a) b (by rw [hab, List.cons_append, List.cons_append]))]

theorem token_of_occurrence :
    ∀ (l a w b : List Char), colonsClean l = true →
      l = a ++ (':' :: w) ++ b → w ≠ [] → (∀ c ∈ w, isIdentChar c = true) →
      ∃ t', t' ∈ findTokens l ∧ (':' :: w) <+: t'
  | l, [], w, b, hcl, hdec, hwne, hwid => by
    subst hdec
    refine ⟨':' :: (w ++ b).takeWhile isIdentChar, ?_, ?_⟩
    · rw [show ((([] : List Char) ++ ':' :: w) ++ b) = ':' :: (w ++ b) by simp]
      rw [findTokens_cons, if_pos rfl]
      rw [takeWhile_append_of_all isIdentChar w b hwid]
      cases hw : w with
      | nil => exact absurd hw hwne
      | cons w0 w1 => exact List.mem_cons_self _ _
    · rw [takeWhile_append_of_all isIdentChar w b hwid]
      exact ⟨b.takeWhile isIdentChar, by simp⟩
  | l, c :: a, w, b, hcl, hdec, hwne, hwid => by
    have hldef : l = c :: (a ++ (':' :: w) ++ b) := by
      rw [hdec]
      simp
    by_cases hcc : c = ':'
    · have hh : ((if c = ':' then
          !((a ++ (':' :: w) ++ b).takeWhile isIdentChar).isEmpty else true)
          && colonsClean (a ++ (':' :: w) ++ b)) = true := by
        rw [hldef] at hcl
        exact hcl
      have hcr := (Bool.and_eq_true _ _).mp hh
      have hidcolon : isIdentChar ':' = false := by decide
      have hshape : a ++ (':' :: w) ++ b = a ++ ':' :: (w ++ b) := by simp
      have hdw : (a ++ (':' :: w) ++ b).dropWhile isIdentChar =
          a.dropWhile isIdentChar ++ (':' :: w) ++ b := by
        rw [hshape, dropWhile_append_stop isIdentChar ':' (w ++ b) hidcolon a]
        simp
      have hsplit : (a ++ (':' :: w) ++ b).takeWhile isIdentChar ++
          (a ++ (':' :: w) ++ b).dropWhile isIdentChar = a ++ (':' :: w) ++ b :=
        List.takeWhile_append_dropWhile isIdentChar _
      have hclsuf : colonsClean ((a ++ (':' :: w) ++ b).dropWhile isIdentChar) = true := by
        refine colonsClean_suffix ((a ++ (':' :: w) ++ b).takeWhile isIdentChar) _ ?_
        rw [hsplit]
        exact hcr.2
      obtain ⟨t', ht'mem, ht'pre⟩ := token_of_occurrence
        ((a ++ (':' :: w) ++ b).dropWhile isIdentChar)
        (a.dropWhile isIdentChar) w b hclsuf hdw hwne hwid
      refine ⟨t', ?_, ht'pre⟩
      rw [hldef, findTokens_cons, if_pos hcc]
      have hba := hcr.1
      rw [if_pos hcc] at hba
      cases htw0 : (a ++ (':' :: w) ++ b).takeWhile isIdentChar with
      | nil =>
        rw [htw0] at hba
        simp at hba
      | cons r0 r1 =>
        exact List.mem_cons_of_mem _ ht'mem
    · have hh : ((if c = ':' then
          !((a ++ (':' :: w) ++ b).takeWhile isIdentChar).isEmpty else true)
          && colonsClean (a ++ (':' :: w) ++ b)) = true := by
        rw [hldef] at hcl
        exact hcl
      have hcr := (Bool.and_eq_true _ _).mp hh
      obtain ⟨t', hm, hp⟩ := token_of_occurrence (a ++ (':' :: w) ++ b) a w b hcr.2 rfl
        hwne hwid
      refine ⟨t', ?_, hp⟩
      rw [hldef, findTokens_cons, if_neg hcc]
      exact hm
termination_by l _ _ _ _ _ => l.length
decreasing_by
  · simp only [hldef, List.length_cons]
    have := length_dropWhile_ident_le (a ++ (':' :: w) ++ b)
    omega
  · simp [hldef]

theorem foldl_replaceAll_eq_specSubst :
    ∀ (ps : List (List Char × List Char)) (path : List Char),
      findTokens path = ps.map Prod.fst →
      (ps.map Prod.fst).Pairwise (fun x y => ¬ x <+: y ∧ ¬ y <+: x) →
      colonsClean path = true →
      (∀ pr ∈ ps, (':' : Char) ∉ pr.2) →
      ps.foldl (fun acc kv => replaceAll kv.1 kv.2 acc) path = specSubst ps path
  | [], path, hft, _, hcl, _ => by
    rw [List.foldl_nil]
    exact (specSubst_of_noColon [] path
      (noColon_of_clean_noTokens path hcl (by simpa using hft))).symm
  | (t, v) :: ps, path, hft, hpw, hcl, hv => by
    rw [List.map_cons] at hft hpw
    obtain ⟨pre, w, suf, htw, hwne, hwid, hdecomp, hpre, hsuftw, hsufts⟩ :=
      findTokens_decomp path hcl t (ps.map Prod.fst) hft
    obtain ⟨w0, w1, rfl⟩ : ∃ w0 w1, w = w0 :: w1 := by
      cases hw : w with
      | nil => exact absurd hw hwne
      | cons w0 w1 => exact ⟨w0, w1, rfl⟩
    have hclsuf : colonsClean suf = true := by
      refine colonsClean_suffix (pre ++ t) suf ?_
      rw [← hdecomp]
      exact hcl
    have hpwtail := (List.pairwise_cons.mp hpw).2
    have hheadrel := (List.pairwise_cons.mp hpw).1
    have hvcolonfree : (':' : Char) ∉ v := hv (t, v) (List.mem_cons_self _ _)
    have hvtail : ∀ pr ∈ ps, (':' : Char) ∉ pr.2 :=
      fun pr hpr => hv pr (List.mem_cons_of_mem _ hpr)
    have hno : ∀ a b, suf ≠ a ++ (':' :: w0 :: w1) ++ b := by
      intro a b hab
      obtain ⟨t', ht'mem, ht'pre⟩ :=
        token_of_occurrence suf a (w0 :: w1) b hclsuf hab hwne hwid
      rw [hsufts] at ht'mem
      exact (hheadrel t' ht'mem).1 (by rw [htw]; exact ht'pre)
    have hstep : replaceAll t v path = pre ++ v ++ suf := by
      rw [hdecomp, htw, replaceAll_decomp (w0 :: w1) v pre suf hpre,
        replaceAll_of_no_occur (':' :: w0 :: w1) v suf hno]
    have hfold : ((t, v) :: ps).foldl (fun acc kv => replaceAll kv.1 kv.2 acc) path =
        ps.foldl (fun acc kv => replaceAll kv.1 kv.2 acc) (replaceAll t v path) := rfl
    have hncpv : (':' : Char) ∉ pre ++ v := by
      intro hm
      rcases List.mem_append.mp hm with h1 | h2
      · exact hpre h1
      · exact hvcolonfree h2
    have hft2 : findTokens (pre ++ v ++ suf) = ps.map Prod.fst := by
      rw [findTokens_append_noColon (pre ++ v) suf hncpv, hsufts]
    have hcl2 : colonsClean (pre ++ v ++ suf) = true := by
      rw [colonsClean_append_noColon (pre ++ v) suf hncpv]
      exact hclsuf
    have hrec := foldl_replaceAll_eq_specSubst ps (pre ++ v ++ suf) hft2 hpwtail hcl2 hvtail
    rw [hfold, hstep, hrec]
    have hr1 : specSubst ((t, v) :: ps) path = pre ++ specSubst ((t, v) :: ps) (t ++ suf) := by
      rw [hdecomp, List.append_assoc]
      exact specSubst_append_noColon ((t, v) :: ps) pre (t ++ suf) hpre
    have htkw : ((w0 :: w1) ++ suf).takeWhile isIdentChar = w0 :: w1 := by
      rw [takeWhile_append_of_all isIdentChar (w0 :: w1) suf hwid, hsuftw, List.append_nil]
    have hdrw : ((w0 :: w1) ++ suf).dropWhile isIdentChar = suf := by
      rw [dropWhile_append_of_all isIdentChar (w0 :: w1) suf hwid]
      exact dropWhile_eq_self_of_takeWhile_nil isIdentChar suf hsuftw
    have hfind : ((t, v) :: ps).find? (fun p => p.1 = ':' :: w0 :: w1) = some (t, v) := by
      rw [List.find?_cons]
      have hd : (decide ((t, v).1 = ':' :: w0 :: w1)) = true := by simp [htw]
      rw [hd]
    have hr2 : specSubst ((t, v) :: ps) (t ++ suf) = v ++ specSubst ((t, v) :: ps) suf := by
      have hsh : t ++ suf = ':' :: ((w0 :: w1) ++ suf) := by
        rw [htw]
        rfl
      rw [hsh, specSubst_cons, if_pos rfl, htkw, hdrw, hfind]
      rfl
    have hr3 : specSubst ((t, v) :: ps) suf = specSubst ps suf := by
      apply specSubst_congr
      intro tok htokmem
      rw [hsufts] at htokmem
      have hne : ¬ (t = tok) := by
        intro heq
        exact (hheadrel tok htokmem).1 (by rw [heq])
      rw [List.find?_cons]
      have hd : (decide ((t, v).1 = tok)) = false := by simp [hne]
      rw [hd]
    rw [hr1, hr2, hr3]
    rw [specSubst_append_noColon ps (pre ++ v) suf hncpv]
    simp [List.append_assoc]

theorem delKey_getKey?_other (kw : Kwargs) (n m : String) (h : m ≠ n) :
    getKey? (delKey kw n) m = getKey? kw m := by
  induction kw with
  | nil => rfl
  | cons p rest ih =>
    by_cases hp : p.1 = n
    · have hpm : ¬ (p.1 = m) := by
        rw [hp]
        exact fun hnm => h hnm.symm
      simp only [delKey, getKey?, List.filter_cons, List.find?_cons] at ih ⊢
      rw [if_neg (by simp [hp])]
      rw [show (decide (p.1 = m)) = false by simp [hpm]]
      exact ih
    · simp only [delKey, getKey?, List.filter_cons, List.find?_cons] at ih ⊢
      rw [if_pos (by simp [hp])]
      rw [List.find?_cons]
      cases hq : decide (p.1 = m) with
      | true => rfl
      | false => exact ih

theorem removeKeys_delKey (kw : Kwargs) (n : String) (ns : List String) :
    removeKeys (delKey kw n) ns = removeKeys kw (n :: ns) := by
  induction kw with
  | nil => rfl
  | cons p rest ih =>
    by_cases hp : p.1 = n
    · simp only [removeKeys, delKey, List.filter_cons] at ih ⊢
      rw [if_neg (by simp [hp])]
      rw [if_neg (by simp [List.contains_cons, hp])]
      exact ih
    · simp only [removeKeys, delKey, List.filter_cons] at ih ⊢
      rw [if_pos (by simp [hp])]
      rw [List.filter_cons]
      have hcc : ((n :: ns).contains p.1) = (ns.contains p.1) := by
        simp [List.contains_cons, hp]
      rw [hcc]
      cases hq : ns.contains p.1 with
      | true =>
        rw [show (!true) = false by rfl]
        simp only [if_neg (by simp : ¬ (false = true))]
        exact ih
      | false =>
        rw [show (!false) = true by rfl]
        simp only [if_pos rfl]
        rw [ih]

theorem getKey?_some_mem (kw : Kwargs) (n : String) (v : Value)
    (h : getKey? kw n = some v) : ∃ p ∈ kw, p.2 = v := by
  unfold getKey? at h
  rcases hf : List.find? (fun p => p.1 = n) kw with _ | p
  · rw [hf] at h
    simp at h
  · rw [hf] at h
    refine ⟨p, List.mem_of_find?_eq_some hf, ?_⟩
    simpa using h

theorem extractTokens_ok_of_present :
    ∀ (ts : List (List Char)) (kw : Kwargs),
      (ts.map identOf).Nodup →
      (∀ t ∈ ts, hasKey kw (identOf t) = true) →
      ∃ ps, extractTokens ts kw = .ok (ps, removeKeys kw (ts.map identOf))
        ∧ ps.map Prod.fst = ts
        ∧ (∀ pr ∈ ps, getKey? kw (identOf pr.1) = some pr.2)
  | [], kw, _, _ => ⟨[], by simp [extractTokens, removeKeys], rfl, by simp⟩
  | u :: ts, kw, hnodup, hpresent => by
    have hu := hpresent u (List.mem_cons_self _ _)
    obtain ⟨v, hv⟩ := hasKey_true_getKey?_some kw (identOf u) hu
    have hcons : (∀ x ∈ ts, ¬ identOf x = identOf u) ∧ (ts.map identOf).Nodup := by
      simpa using hnodup
    have hpres' : ∀ t ∈ ts, hasKey (delKey kw (identOf u)) (identOf t) = true := by
      intro t ht
      rw [delKey_hasKey_other kw (identOf u) (identOf t) (hcons.1 t ht)]
      exact hpresent t (List.mem_cons_of_mem _ ht)
    obtain ⟨ps, h1, h2, h3⟩ :=
      extractTokens_ok_of_present ts (delKey kw (identOf u)) hcons.2 hpres'
    refine ⟨(u, v) :: ps, ?_, by rw [List.map_cons, h2], ?_⟩
    · simp only [extractTokens]
      rw [hv, h1, removeKeys_delKey]
      rfl
    · intro pr hpr
      rcases List.mem_cons.mp hpr with heq | hm
      · rw [heq]
        exact hv
      · have hmem : pr.1 ∈ ts := by
          rw [← h2]
          exact List.mem_map_of_mem Prod.fst hm
        have := h3 pr hm
        rw [delKey_getKey?_other kw (identOf u) (identOf pr.1)
          (hcons.1 pr.1 hmem)] at this
        exact this

theorem climbBase_foldl_acc {H : Type} :
    ∀ (chain : List (NodeCfg H)) (acc : List Char),
      chain.foldl (fun a cfg => cfg.base_url ++ a) acc =
        (chain.reverse.map (fun c => c.base_url)).flatten ++ acc
  | [], acc => by simp
  | c :: chain, acc => by
    rw [List.foldl_cons, climbBase_foldl_acc chain (c.base_url ++ acc)]
    simp

/-- The base-URL climb concatenates the fragments in root-to-leaf order. -/
theorem climbBase_eq_reverse_join {H : Type} (chain : List (NodeCfg H)) :
    climbBase chain = (chain.reverse.map (fun c => c.base_url)).flatten := by
  unfold climbBase
  rw [climbBase_foldl_acc chain []]
  simp

/-- C3 counterexample: with template `/:id/:idx` (the token `:id` a prefix of
the token `:idx`), binding `id=7, idx=9` dispatches to `/7/7x` — the
sequential `str.replace` of `:id` with `7` also rewrites the prefix of the
second token — while per-token substitution of the identically-named
argument yields `/7/9`. -/
theorem c3_counterexample :
    make_request (H := Nat) ⟨"e", "/:id/:idx".data, none, [.tag .GET], none, none, []⟩
      [⟨"".data, none, none, none⟩] (.tag .GET) [("id", .vnat 7), ("idx", .vnat 9)] =
      .ok ⟨"GET", "/7/7x".data, [], none, none, none, none⟩
    ∧ specSubst [(":id".data, "7".data), (":idx".data, "9".data)] "/:id/:idx".data =
        "/7/9".data
    ∧ ("/7/7x".data : List Char) ≠ "/7/9".data :=
  ⟨by decide, by decide, by decide⟩

/-- C3 (corrected): provided the template's tokens are pairwise distinct
with none a prefix of another, every colon in the template opens a token,
and no stringified argument value contains a colon, each `:identifier` token
is substituted with the stringified value of the identically-named keyword
argument (the parallel, per-occurrence reading), those arguments are removed
from the argument set, the request URL is the concatenation of the
`baseUrlFragment` values from root to leaf followed by the substituted path,
and the remaining keyword arguments become the structured body for
POST/PUT/PATCH and structured query parameters for every other method.
(Without the proviso the sequential in-place replacement can corrupt
overlapping tokens, as the counterexample shows.) -/
theorem c3_url_and_payload_binding {H : Type} (e : Endpoint H) (chain : List (NodeCfg H))
    (m : MethodVal) (kw : Kwargs)
    (hpw : (findTokens e.path).Pairwise (fun x y => ¬ x <+: y ∧ ¬ y <+: x))
    (hcl : colonsClean e.path = true)
    (hvals : ∀ pr ∈ kw, (':' : Char) ∉ Value.strOf pr.2)
    (hpresent : ∀ t ∈ findTokens e.path, hasKey kw (identOf t) = true)
    (hok : check_method_ok e.methods m = true)
    (hreq : e.required_params.find? (fun q => ! hasKey kw q) = none) :
    ∃ ps,
      extractTokens (findTokens e.path) kw =
        .ok (ps, removeKeys kw ((findTokens e.path).map identOf))
      ∧ ps.map Prod.fst = findTokens e.path
      ∧ (∀ pr ∈ ps, getKey? kw (identOf pr.1) = some pr.2)
      ∧ make_request e chain m kw = .ok
          { method := methodString m
            url := (chain.reverse.map (fun c => c.base_url)).flatten ++
              specSubst (ps.map (fun pr => (pr.1, pr.2.strOf))) e.path
            headers := get_headers e chain
            auth := get_auth_handler e chain
            jsonBody := if ¬ (removeKeys kw ((findTokens e.path).map identOf)).isEmpty
                ∧ (methodString m = "POST" ∨ methodString m = "PUT" ∨ methodString m = "PATCH")
              then some (removeKeys kw ((findTokens e.path).map identOf)) else none
            queryParams := if ¬ (removeKeys kw ((findTokens e.path).map identOf)).isEmpty
                ∧ ¬ (methodString m = "POST" ∨ methodString m = "PUT" ∨ methodString m = "PATCH")
              then some (removeKeys kw ((findTokens e.path).map identOf)) else none
            handler := get_response_handler e chain } := by
  have hnodup : (findTokens e.path).Nodup := by
    refine hpw.imp ?_
    intro a b hab heq
    exact hab.1 (by rw [heq])
  obtain ⟨ps, h1, h2, h3⟩ := extractTokens_ok_of_present (findTokens e.path) kw
    (findTokens_idents_nodup e.path hnodup) hpresent
  have hA : (ps.map (fun pr : List Char × Value => (pr.1, pr.2.strOf))).map Prod.fst =
      findTokens e.path := by
    rw [List.map_map]
    rw [show (Prod.fst ∘ fun pr : List Char × Value => (pr.1, pr.2.strOf)) =
      (Prod.fst : List Char × Value → List Char) from rfl]
    exact h2
  have hB : ((ps.map (fun pr : List Char × Value => (pr.1, pr.2.strOf))).map
      Prod.fst).Pairwise (fun x y => ¬ x <+: y ∧ ¬ y <+: x) := by
    rw [hA]
    exact hpw
  have hD : ∀ pr ∈ ps.map (fun pr : List Char × Value => (pr.1, pr.2.strOf)),
      (':' : Char) ∉ pr.2 := by
    intro pr' hm
    obtain ⟨pr, hpr, hpr'⟩ := List.mem_map.mp hm
    obtain ⟨q, hq, hq2⟩ := getKey?_some_mem kw (identOf pr.1) pr.2 (h3 pr hpr)
    rw [← hpr']
    show (':' : Char) ∉ pr.2.strOf
    rw [← hq2]
    exact hvals q hq
  have hsub := foldl_replaceAll_eq_specSubst
    (ps.map (fun pr : List Char × Value => (pr.1, pr.2.strOf))) e.path hA.symm hB hcl hD
  have hurl : construct_url e chain ps =
      (chain.reverse.map (fun c => c.base_url)).flatten ++
        specSubst (ps.map (fun pr => (pr.1, pr.2.strOf))) e.path := by
    unfold construct_url substLoop
    rw [climbBase_eq_reverse_join]
    rw [← hsub, List.foldl_map]
  refine ⟨ps, h1, h2, h3, ?_⟩
  simp only [make_request]
  rw [if_neg (by simp [hok]), hreq, h1]
  simp only [hurl]

/-- Witness for C3: a parameterized GET with one leftover query argument. -/
theorem c3_witness :
    make_request (H := Nat) ⟨"one", "/todos/:id".data, none, [.tag .GET], none, none, []⟩
      [⟨"/v1".data, none, none, none⟩, ⟨"/api".data, none, none, none⟩] (.tag .GET)
      [("id", .vnat 7), ("q", .vstr "x")] =
      .ok { method := "GET", url := "/api/v1/todos/7".data, headers := [], auth := none,
            jsonBody := none, queryParams := some [("q", Value.vstr "x")],
            handler := none } := by
  obtain ⟨ps, h1, h2, h3, h4⟩ := c3_url_and_payload_binding (H := Nat)
    ⟨"one", "/todos/:id".data, none, [.tag .GET], none, none, []⟩
    [⟨"/v1".data, none, none, none⟩, ⟨"/api".data, none, none, none⟩] (.tag .GET)
    [("id", .vnat 7), ("q", .vstr "x")]
    (by decide) (by decide) (by decide) (by decide) (by decide) rfl
  have hcomp : extractTokens (findTokens "/todos/:id".data)
      [("id", Value.vnat 7), ("q", Value.vstr "x")] =
      .ok ([(":id".data, Value.vnat 7)], [("q", Value.vstr "x")]) := by decide
  rw [hcomp] at h1
  have hps : ps = [(":id".data, Value.vnat 7)] := by
    have := h1
    simp at this
    exact this.1.symm
  rw [hps] at h4
  rw [h4]
  decide

end Fab
